import Mathlib

/-!
Verification of the utility primitives of the raft package (`util.go`).

The development embeds the peer-list operations, the configuration codec and
the fixed-width integer codec, the election timer, the notifier and the
identifier generator of `util.go` as Lean functions and proves the properties
the specification states about them.

Conventions of the embedding:

* a Go slice is a `List`; a nil slice and an empty slice have the same contents
  and are both the empty list;
* a byte is a `Fin 256`, and `byte v` is Go's conversion `byte(v)`;
* a `uint64` is a natural number below `2 ^ 64`;
* a function that can panic returns `Except String _` (or `Option _`), the
  error being the panic.
-/

namespace Raft

/-! ## Data model -/

/-- One octet. -/
abbrev Byte := Fin 256

/-- Go's conversion `byte(v)` of an unsigned integer: the low eight bits. -/
def byte (v : Nat) : Byte := Fin.ofNat v

/-- The interface `net.Addr`: any type with the two methods `Network()` and
`String()`. -/
class NetAddr (α : Type) where
  /-- Name of the network, `Network()`. -/
  Network : α → String
  /-- Textual form of the address, `String()`. -/
  String : α → String

/-- The part of the interface `Transport` that `util.go` uses: the per-peer
codec. -/
structure Transport (α : Type) where
  /-- Serialises one peer address, `EncodePeer`. -/
  EncodePeer : α → List Byte
  /-- Deserialises one peer address, `DecodePeer`. -/
  DecodePeer : List Byte → α

/-! ## Peer lists -/

section Peers

variable {α : Type} [NetAddr α]

/-- The function `excludePeer`: the loop appends to `otherPeers` every element
whose `String()` differs from that of `peer`. -/
def excludePeer (peers : List α) (peer : α) : List α :=
  peers.foldl
    (fun otherPeers p =>
      if NetAddr.String p ≠ NetAddr.String peer then otherPeers ++ [p] else otherPeers)
    []

/-- The function `peerContained`: the loop returns `true` at the first element
whose `String()` equals that of `peer`, and `false` when it runs off the end. -/
def peerContained : List α → α → Bool
  | [], _ => false
  | p :: rest, peer =>
    if NetAddr.String p = NetAddr.String peer then true else peerContained rest peer

/-- The function `addUniquePeer`: `peers` itself when `peer` is contained,
`append(peers, peer)` otherwise. -/
def addUniquePeer (peers : List α) (peer : α) : List α :=
  if peerContained peers peer then peers else peers ++ [peer]

/-- The invariant of a peer set: no two elements have the same `String()`. -/
def duplicateFree (peers : List α) : Prop :=
  (peers.map NetAddr.String).Nodup

instance (peers : List α) : Decidable (duplicateFree peers) := by
  unfold duplicateFree; infer_instance

end Peers

/-- A concrete implementation of `net.Addr`, used to instantiate the theorems:
an identifier that is its own textual form. -/
structure InmemAddr where
  /-- The identifier. -/
  ID : String
  deriving DecidableEq, Repr

instance : NetAddr InmemAddr where
  Network := fun _ => "inmem"
  String := fun a => a.ID

/-! ## Fixed-width integers -/

/-- The method `binary.BigEndian.PutUint64`: it panics when `b` has fewer than
eight bytes, and otherwise overwrites `b[0]` to `b[7]` with `byte(v >> 56)`,
`byte(v >> 48)`, ..., `byte(v)`, leaving the bytes after them in place. -/
def PutUint64 (b : List Byte) (v : Nat) : Option (List Byte) :=
  if b.length < 8 then none
  else some ([byte (v >>> 56), byte (v >>> 48), byte (v >>> 40), byte (v >>> 32),
              byte (v >>> 24), byte (v >>> 16), byte (v >>> 8), byte v] ++ b.drop 8)

/-- The method `binary.BigEndian.Uint64`: it panics when `b` has fewer than
eight bytes, and otherwise returns
`uint64(b[7]) | uint64(b[6])<<8 | ... | uint64(b[0])<<56`. -/
def Uint64 (b : List Byte) : Option Nat :=
  match b with
  | b0 :: b1 :: b2 :: b3 :: b4 :: b5 :: b6 :: b7 :: _ =>
    some (b7.val ||| b6.val <<< 8 ||| b5.val <<< 16 ||| b4.val <<< 24 |||
          b3.val <<< 32 ||| b2.val <<< 40 ||| b1.val <<< 48 ||| b0.val <<< 56)
  | _ => none

/-- The function `bytesToUint64`; `none` is the index-out-of-range panic. -/
def bytesToUint64 (b : List Byte) : Option Nat :=
  Uint64 b

/-- The function `uint64ToBytes`: a fresh buffer of eight zero bytes, filled by
`PutUint64`. The buffer has eight bytes, so `PutUint64` does not panic and the
alternative of `getD` is never taken. -/
def uint64ToBytes (u : Nat) : List Byte :=
  (PutUint64 (List.replicate 8 0) u).getD []

/-- Value of a byte sequence read as a big-endian base-256 numeral. -/
def bigEndianValue (b : List Byte) : Nat :=
  b.foldl (fun acc d => acc * 256 + d.val) 0

/-! ## MessagePack, as `encodeMsgPack` and `decodeMsgPack` use it

`util.go` hands the list of encoded peers to the MessagePack encoder of
`github.com/ugorji/go/codec` with a default `MsgpackHandle`, and decodes with
the same handle into a `[][]byte`. That library is a dependency and not part
of the package; the definitions of this section follow the MessagePack wire
format the way the library applies it to a `[][]byte`:

* a nil `[][]byte` is written as `nil` (`0xc0`), a non-nil one as an array:
  `0x90 | n` for `n < 16`, `0xdc` and a 16-bit length for `n < 65536`, `0xdd`
  and a 32-bit length otherwise;
* a byte string is written in the raw family: `0xa0 | n` for `n < 32`, `0xda`
  and a 16-bit length for `n < 65536`, `0xdb` and a 32-bit length otherwise;
* lengths are big-endian, and a length is converted to `uint16` or `uint32`
  before it is written, which keeps its low 16 or 32 bits;
* a per-peer encoding is written as a byte string also when it is empty; the
  library writes a nil `[]byte` as `nil` (`0xc0`) instead, a value that has no
  counterpart here, where a byte slice is its contents;
* the decoder reads one value from the front of the buffer and leaves what
  follows it unread; for the list it accepts `nil`, an array, and a map, whose
  keys and values it takes as the elements in order; for a byte string it
  accepts `nil`, the raw, `str` and `bin` families, and an array of unsigned
  integers below 256, one for each byte.
-/

/-- The helper `writeUint16` of the encoder: two bytes, big-endian. -/
def writeUint16 (v : Nat) : List Byte :=
  [byte (v >>> 8), byte v]

/-- The helper `writeUint32` of the encoder: four bytes, big-endian. -/
def writeUint32 (v : Nat) : List Byte :=
  [byte (v >>> 24), byte (v >>> 16), byte (v >>> 8), byte v]

/-- The header of a container of `l` items: the one-byte form below
`fixCutoff`, else the 16-bit form below `65536`, else the 32-bit form of
`uint32(l)`. -/
def writeContainerLen (fixCutoff bFixMin b16 b32 : Nat) (l : Nat) : List Byte :=
  if l < fixCutoff then [byte (bFixMin ||| l)]
  else if l < 65536 then byte b16 :: writeUint16 (l % 2 ^ 16)
  else byte b32 :: writeUint32 (l % 2 ^ 32)

/-- Encoding of one `[]byte` that is not nil: a raw header and the bytes. A nil
`[]byte`, which the library writes as `nil` (`0xc0`), has no counterpart in the
embedding; `0xc0` in the place of an element is a complete encoding all the
same, see `EncodesBytes.nil`. -/
def encodeStringBytes (bs : List Byte) : List Byte :=
  writeContainerLen 32 0xa0 0xda 0xdb bs.length ++ bs

/-- Encoding of a `[][]byte`: `nil` for the nil slice, else an array header and
the encoded elements in order. The slice that `encodePeers` builds is nil
exactly when it is empty. -/
def encodeSlice (v : List (List Byte)) : List Byte :=
  match v with
  | [] => [byte 0xc0]
  | _ :: _ =>
    writeContainerLen 16 0x90 0xdc 0xdd v.length ++ (v.map encodeStringBytes).flatten

/-- The function `encodeMsgPack` at the type `[][]byte`: the encoder writes to
a memory buffer, so the error it returns is always nil. -/
def encodeMsgPack (v : List (List Byte)) : Except String (List Byte) :=
  .ok (encodeSlice v)

/-- Reads `n` bytes from the front of the buffer; fails when fewer are left. -/
def readn (n : Nat) (r : List Byte) : Except String (List Byte × List Byte) :=
  if r.length < n then .error "EOF" else .ok (r.take n, r.drop n)

/-- Reads a big-endian length of `width` bytes, then that many bytes. -/
def readSized (width : Nat) (r : List Byte) : Except String (List Byte × List Byte) :=
  match readn width r with
  | .error e => .error e
  | .ok (len, rest) => readn (bigEndianValue len) rest

/-- Reads the length of a container whose descriptor is `bd`: the low four bits
of a descriptor from `fixMin` to `fixMin + 15`, or the 16-bit or 32-bit
big-endian length that follows the descriptor `b16` or `b32`. -/
def readContainerLen (fixMin b16 b32 : Nat) (bd : Byte) (rest : List Byte) :
    Except String (Nat × List Byte) :=
  if fixMin ≤ bd.val ∧ bd.val ≤ fixMin + 15 then .ok (bd.val &&& 0x0f, rest)
  else if bd.val = b16 then
    match readn 2 rest with
    | .error e => .error e
    | .ok (len, rest') => .ok (bigEndianValue len, rest')
  else if bd.val = b32 then
    match readn 4 rest with
    | .error e => .error e
    | .ok (len, rest') => .ok (bigEndianValue len, rest')
  else .error "cannot read container length"

/-- The width in bytes of the integer that follows a descriptor, and whether it
is signed: `uint8` to `uint64` are `0xcc` to `0xcf`, `int8` to `int64` are `0xd0`
to `0xd3`. -/
def intDescriptor (bd : Nat) : Option (Nat × Bool) :=
  if bd = 0xcc then some (1, false)
  else if bd = 0xcd then some (2, false)
  else if bd = 0xce then some (4, false)
  else if bd = 0xcf then some (8, false)
  else if bd = 0xd0 then some (1, true)
  else if bd = 0xd1 then some (2, true)
  else if bd = 0xd2 then some (4, true)
  else if bd = 0xd3 then some (8, true)
  else none

/-- Decoding of one unsigned integer into a byte: `nil` is zero, a positive
fixnum is itself, and an integer of a sized family is accepted when it is not
negative and is below 256. -/
def decodeUint8 (r : List Byte) : Except String (Byte × List Byte) :=
  match r with
  | [] => .error "EOF"
  | bd :: rest =>
    if bd.val = 0xc0 then .ok (0, rest)
    else if bd.val ≤ 0x7f then .ok (bd, rest)
    else
      match intDescriptor bd.val with
      | none => .error "cannot decode unsigned integer"
      | some (w, signed) =>
        match readn w rest with
        | .error e => .error e
        | .ok (bs, rest') =>
          if signed = true ∧ 2 ^ (8 * w - 1) ≤ bigEndianValue bs then
            .error "assigning negative signed value to unsigned type"
          else if 255 < bigEndianValue bs then .error "uint64 overflow"
          else .ok (byte (bigEndianValue bs), rest')

/-- Decoding of `n` consecutive unsigned integers into bytes. -/
def decodeUints : Nat → List Byte → Except String (List Byte × List Byte)
  | 0, r => .ok ([], r)
  | n + 1, r =>
    match decodeUint8 r with
    | .error e => .error e
    | .ok (x, rest) =>
      match decodeUints n rest with
      | .error e => .error e
      | .ok (xs, rest') => .ok (x :: xs, rest')

/-- Decoding of one `[]byte` from the front of the buffer: `nil`, a byte string
of the raw, `str` or `bin` families, or an array of unsigned integers. -/
def decodeBytes (r : List Byte) : Except String (List Byte × List Byte) :=
  match r with
  | [] => .error "EOF"
  | bd :: rest =>
    if bd.val = 0xc0 then .ok ([], rest)
    else if 0xa0 ≤ bd.val ∧ bd.val ≤ 0xbf then readn (bd.val &&& 0x1f) rest
    else if bd.val = 0xd9 ∨ bd.val = 0xc4 then readSized 1 rest
    else if bd.val = 0xda ∨ bd.val = 0xc5 then readSized 2 rest
    else if bd.val = 0xdb ∨ bd.val = 0xc6 then readSized 4 rest
    else
      match readContainerLen 0x90 0xdc 0xdd bd rest with
      | .error e => .error e
      | .ok (n, rest') => decodeUints n rest'

/-- Decoding of `n` consecutive byte strings from the front of the buffer. -/
def decodeElems : Nat → List Byte → Except String (List (List Byte) × List Byte)
  | 0, r => .ok ([], r)
  | n + 1, r =>
    match decodeBytes r with
    | .error e => .error e
    | .ok (x, rest) =>
      match decodeElems n rest with
      | .error e => .error e
      | .ok (xs, rest') => .ok (x :: xs, rest')

/-- One step of decoding items in a row: the first item by `one`, the others by
`many`. Both `decodeUints` and `decodeElems` take this step. -/
def seqStep {β : Type} (one : List Byte → Except String (β × List Byte))
    (many : List Byte → Except String (List β × List Byte)) (r : List Byte) :
    Except String (List β × List Byte) :=
  match one r with
  | .error e => .error e
  | .ok (x, rest) =>
    match many rest with
    | .error e => .error e
    | .ok (xs, rest') => .ok (x :: xs, rest')

/-- Decoding of one value into a `[][]byte`, with the bytes that follow the
value: `nil`, a map of `n` pairs, whose `2 * n` keys and values are the elements,
or an array of `n` elements; any other descriptor is an error. -/
def decodeContainer (r : List Byte) : Except String (List (List Byte) × List Byte) :=
  match r with
  | [] => .error "EOF"
  | bd :: rest =>
    if bd.val = 0xc0 then .ok ([], rest)
    else if (0x80 ≤ bd.val ∧ bd.val ≤ 0x8f) ∨ bd.val = 0xde ∨ bd.val = 0xdf then
      match readContainerLen 0x80 0xde 0xdf bd rest with
      | .error e => .error e
      | .ok (n, rest') => decodeElems (2 * n) rest'
    else
      match readContainerLen 0x90 0xdc 0xdd bd rest with
      | .error e => .error e
      | .ok (n, rest') => decodeElems n rest'

/-- Decoding of a `[][]byte` from the front of the buffer; what follows the
value is not read. -/
def decodeSlice (r : List Byte) : Except String (List (List Byte)) :=
  match decodeContainer r with
  | .error e => .error e
  | .ok (v, _) => .ok v

/-- The function `decodeMsgPack` at the type `*[][]byte`: the decoded value, or
the error of the decoder. -/
def decodeMsgPack (buf : List Byte) : Except String (List (List Byte)) :=
  decodeSlice buf

/-! ## The complete encodings that the decoder accepts

The relations of this section say, without reference to the decoder, which
byte sequences are complete encodings and of what: they are the yardstick for
`decodePeers` on malformed and truncated input. -/

/-- The bytes `hdr` are the header of a container of `n` items: a single
descriptor from `fixMin` to `fixMin + 15`, whose low four bits are `n`, or the
descriptor `b16` or `b32` followed by the two or four bytes of `n`. -/
inductive EncodesLen (fixMin b16 b32 : Nat) : List Byte → Nat → Prop where
  /-- The one-byte form. -/
  | fix (bd : Byte) (h : fixMin ≤ bd.val ∧ bd.val ≤ fixMin + 15) :
      EncodesLen fixMin b16 b32 [bd] (bd.val &&& 0x0f)
  /-- The form with a 16-bit length. -/
  | len16 (bd : Byte) (len : List Byte) (hbd : bd.val = b16) (hl : len.length = 2) :
      EncodesLen fixMin b16 b32 (bd :: len) (bigEndianValue len)
  /-- The form with a 32-bit length. -/
  | len32 (bd : Byte) (len : List Byte) (hbd : bd.val = b32) (hl : len.length = 4) :
      EncodesLen fixMin b16 b32 (bd :: len) (bigEndianValue len)

/-- The bytes `v` are a complete encoding of the unsigned integer `b`, which is
below 256: `nil`, a positive fixnum, or a descriptor `uint8` to `uint64` or
`int8` to `int64` followed by the bytes of a value that is not negative. -/
inductive EncodesUint : List Byte → Byte → Prop where
  /-- The value `nil` is read as zero. -/
  | nil : EncodesUint [0xc0] 0
  /-- A positive fixnum is its own value. -/
  | fixnum (bd : Byte) (h : bd.val ≤ 0x7f) : EncodesUint [bd] bd
  /-- An integer of a sized family. -/
  | sized (bd : Byte) (w : Nat) (signed : Bool) (bs : List Byte)
      (hd : intDescriptor bd.val = some (w, signed)) (hw : bs.length = w)
      (hneg : signed = true → bigEndianValue bs < 2 ^ (8 * w - 1))
      (hov : bigEndianValue bs ≤ 255) :
      EncodesUint (bd :: bs) (byte (bigEndianValue bs))

/-- The bytes `v` are the complete encodings of the items `xs`, one after the
other. -/
inductive EncodesSeq {β : Type} (One : List Byte → β → Prop) : List Byte → List β → Prop where
  /-- No item. -/
  | nil : EncodesSeq One [] []
  /-- A first item and the others. -/
  | cons (v vs : List Byte) (x : β) (xs : List β) (h : One v x) (hs : EncodesSeq One vs xs) :
      EncodesSeq One (v ++ vs) (x :: xs)

/-- The bytes `v` are a complete encoding of the byte string `bs`: `nil`; a
string of the raw, `str` or `bin` families, that is a descriptor, the length it
calls for, and as many bytes; or an array of as many unsigned integers as `bs`
has bytes. -/
inductive EncodesBytes : List Byte → List Byte → Prop where
  /-- The value `nil` is read as the empty string. -/
  | nil : EncodesBytes [0xc0] []
  /-- A string of fewer than 32 bytes, whose length is in the descriptor. -/
  | fixstr (bd : Byte) (bs : List Byte) (h : 0xa0 ≤ bd.val ∧ bd.val ≤ 0xbf)
      (hl : bs.length = bd.val &&& 0x1f) : EncodesBytes (bd :: bs) bs
  /-- A string with a length field of `w` bytes. -/
  | sized (bd : Byte) (w : Nat) (len bs : List Byte)
      (hd : ((bd.val = 0xd9 ∨ bd.val = 0xc4) ∧ w = 1) ∨ ((bd.val = 0xda ∨ bd.val = 0xc5) ∧ w = 2)
        ∨ ((bd.val = 0xdb ∨ bd.val = 0xc6) ∧ w = 4))
      (hw : len.length = w) (hl : bs.length = bigEndianValue len) :
      EncodesBytes (bd :: (len ++ bs)) bs
  /-- An array of unsigned integers. -/
  | uints (hdr vs bs : List Byte) (n : Nat) (hh : EncodesLen 0x90 0xdc 0xdd hdr n)
      (hs : EncodesSeq EncodesUint vs bs) (hn : bs.length = n) :
      EncodesBytes (hdr ++ vs) bs

/-- The bytes `v` are a complete encoding of the list `l` of byte strings:
`nil` for the empty list, an array of the elements, or a map whose keys and
values are the elements. -/
inductive EncodesList : List Byte → List (List Byte) → Prop where
  /-- The value `nil` is read as the empty list. -/
  | nil : EncodesList [0xc0] []
  /-- An array of `n` byte strings. -/
  | array (hdr vs : List Byte) (l : List (List Byte)) (n : Nat)
      (hh : EncodesLen 0x90 0xdc 0xdd hdr n) (hs : EncodesSeq EncodesBytes vs l)
      (hn : l.length = n) : EncodesList (hdr ++ vs) l
  /-- A map of `n` pairs of byte strings. -/
  | map (hdr vs : List Byte) (l : List (List Byte)) (n : Nat)
      (hh : EncodesLen 0x80 0xde 0xdf hdr n) (hs : EncodesSeq EncodesBytes vs l)
      (hn : l.length = 2 * n) : EncodesList (hdr ++ vs) l

/-- The buffer starts with a complete encoding of a list of byte strings. -/
def startsWithList (buf : List Byte) : Prop :=
  ∃ v rest l, buf = v ++ rest ∧ EncodesList v l

/-! ## Configuration codec -/

/-- The function `encodePeers`: every peer is encoded by the transport, the
list of encodings by `encodeMsgPack`; an error of the encoder is a panic. -/
def encodePeers {α : Type} (peers : List α) (trans : Transport α) :
    Except String (List Byte) :=
  let encPeers := peers.foldl (fun encPeers p => encPeers ++ [trans.EncodePeer p]) []
  match encodeMsgPack encPeers with
  | .error err => .error ("Failed to encode peers: " ++ err)
  | .ok buf => .ok buf

/-- The function `decodePeers`: the buffer is decoded by `decodeMsgPack`, an
error being a panic, and every element by the transport, in order. -/
def decodePeers {α : Type} (buf : List Byte) (trans : Transport α) :
    Except String (List α) :=
  match decodeMsgPack buf with
  | .error err => .error ("Failed to decode peers: " ++ err)
  | .ok encPeers =>
    .ok (encPeers.foldl (fun peers enc => peers ++ [trans.DecodePeer enc]) [])

/-- A concrete transport, used to instantiate the theorems: the identity
per-peer codec, for addresses that are their own encoding. -/
def identityTransport : Transport (List Byte) where
  EncodePeer := fun p => p
  DecodePeer := fun b => b

/-! ## Minimum and maximum -/

/-- The function `min`: `a` when `a <= b`, else `b`. -/
def min (a b : Nat) : Nat :=
  if a ≤ b then a else b

/-- The function `max`: `a` when `a >= b`, else `b`. -/
def max (a b : Nat) : Nat :=
  if a ≥ b then a else b

/-! ## Election timer

A `time.Duration` is an `int64`: an integer from `-2 ^ 63` to `2 ^ 63 - 1`, with
sums taken modulo `2 ^ 64`. The value of `rand.Int63()` is a parameter. -/

/-- The value an `int64` holds after an operation whose exact result is `x`:
the representative of `x` modulo `2 ^ 64` from `-2 ^ 63` to `2 ^ 63 - 1`. -/
def wrapInt64 (x : Int) : Int :=
  (x + 2 ^ 63) % 2 ^ 64 - 2 ^ 63

/-- Go's remainder `x % y` on integers: a run-time panic when `y` is zero, else
the remainder of the truncated division. -/
def goRem (x y : Int) : Except String Int :=
  if y = 0 then .error "integer divide by zero" else .ok (Int.tmod x y)

/-- The result of `randomTimeout`: the nil channel, which never delivers, or the
channel of `time.After(d)`. -/
inductive TimeoutCh where
  /-- The nil channel. -/
  | never : TimeoutCh
  /-- The channel returned by `time.After(d)`. -/
  | after (d : Int) : TimeoutCh
  deriving DecidableEq, Repr

/-- The function `randomTimeout`, `r` being the value of `rand.Int63()`: the nil
channel when `minVal` is zero, else `time.After(minVal + extra)` with
`extra = r % minVal`. -/
def randomTimeout (minVal r : Int) : Except String TimeoutCh :=
  if minVal = 0 then .ok TimeoutCh.never
  else
    match goRem r minVal with
    | .error e => .error e
    | .ok extra => .ok (TimeoutCh.after (wrapInt64 (minVal + extra)))

/-! ## Notifier

A listener is a `chan struct{}`. The embedding is sequential: the state of a
channel is its capacity, the number of signals in its buffer, the number of
receivers blocked on it and whether it has been closed; a store maps the address
of every channel to its state, and a listener is nil or an address. A send
proceeds when a receiver is blocked on the channel, to which the signal is
handed over without buffering, or when the buffer has room. -/

/-- The state of one channel. -/
structure Chan where
  /-- The capacity of the buffer. -/
  cap : Nat
  /-- The number of signals pending in the buffer. -/
  len : Nat
  /-- The number of receivers blocked on the channel. -/
  recvq : Nat
  /-- Whether `close` has been called on the channel. -/
  closed : Bool
  /-- The buffer never holds more than its capacity. -/
  len_le : len ≤ cap

/-- The channels of the program, by address. -/
abbrev Chans := Nat → Chan

/-- The function `asyncNotifyCh`: a `select` with the send `ch <- struct{}{}` and
a `default` case. A send on a nil channel never proceeds, so the default case is
taken; a send on a closed channel panics; a send on a channel with a blocked
receiver hands the signal to that receiver, which is no longer blocked; a send
on a channel whose buffer has room adds one signal; otherwise the default case
is taken. -/
def asyncNotifyCh (σ : Chans) (ch : Option Nat) : Except String Chans :=
  match ch with
  | none => .ok σ
  | some a =>
    if (σ a).closed then .error "send on closed channel"
    else if 0 < (σ a).recvq then
      .ok (Function.update σ a
        ⟨(σ a).cap, (σ a).len, (σ a).recvq - 1, (σ a).closed, (σ a).len_le⟩)
    else if h : (σ a).len < (σ a).cap then
      .ok (Function.update σ a ⟨(σ a).cap, (σ a).len + 1, (σ a).recvq, (σ a).closed, h⟩)
    else .ok σ

/-- The function `asyncNotify`: `asyncNotifyCh` on every channel of the list, in
order. -/
def asyncNotify : Chans → List (Option Nat) → Except String Chans
  | σ, [] => .ok σ
  | σ, ch :: rest =>
    match asyncNotifyCh σ ch with
    | .error e => .error e
    | .ok σ' => asyncNotify σ' rest

/-- A store in which every channel is open and empty, with capacity `c`, and no
receiver is blocked. -/
def emptyChans (c : Nat) : Chans :=
  fun _ => ⟨c, 0, 0, false, Nat.zero_le c⟩

/-- A store in which every channel is closed. -/
def closedChans : Chans :=
  fun _ => ⟨1, 0, 0, true, Nat.zero_le 1⟩

/-- A store in which every channel is open and unbuffered, with one receiver
blocked on it. -/
def waitingChans : Chans :=
  fun _ => ⟨0, 0, 1, false, Nat.le_refl 0⟩

/-! ## Identifiers -/

/-- The digits of `fmt` for the verb `%x`. -/
def ldigits : List Char :=
  ['0', '1', '2', '3', '4', '5', '6', '7', '8', '9', 'a', 'b', 'c', 'd', 'e', 'f']

/-- The hexadecimal digit `ldigits[n]`. -/
def hexChar (n : Nat) : Char :=
  ldigits.getD n '0'

/-- The verb `%x` of `fmt` on a byte slice, before padding: every byte gives the
two digits `ldigits[c>>4]` and `ldigits[c&0xF]`. -/
def fmtSbx (b : List Byte) : List Char :=
  b.flatMap (fun c => [hexChar (c.val >>> 4), hexChar (c.val &&& 0xF)])

/-- Padding of `fmt` to a width: when the text is shorter than the width, the
missing characters are written to its left, zeros with the flag `0` and spaces
without it. -/
def fmtPad (width : Nat) (zero : Bool) (s : List Char) : List Char :=
  List.replicate (width - s.length) (if zero then '0' else ' ') ++ s

/-- The slice expression `b[lo:hi]`, for `lo <= hi <= len(b)`. -/
def slice (b : List Byte) (lo hi : Nat) : List Byte :=
  (b.take hi).drop lo

/-- The call `fmt.Sprintf("%08x-%04x-%04x-%04x-%12x", ...)` of `generateUUID` on
the sixteen bytes of `buf`. -/
def formatUUID (buf : List Byte) : String :=
  String.mk (fmtPad 8 true (fmtSbx (slice buf 0 4)) ++ '-' ::
    fmtPad 4 true (fmtSbx (slice buf 4 6)) ++ '-' ::
    fmtPad 4 true (fmtSbx (slice buf 6 8)) ++ '-' ::
    fmtPad 4 true (fmtSbx (slice buf 8 10)) ++ '-' ::
    fmtPad 12 false (fmtSbx (slice buf 10 16)))

/-- The function `generateUUID`, `read` being the outcome of `crand.Read` on the
buffer of sixteen bytes: its error, which is a panic, or the bytes read. -/
def generateUUID (read : Except String (List Byte)) : Except String String :=
  match read with
  | .error err => .error ("Failed to read random bytes: " ++ err)
  | .ok buf => .ok (formatUUID buf)

/-! ## Peer lists: lemmas -/

section PeerLemmas

variable {α : Type} [NetAddr α]

/-- The loop of `excludePeer`, started from any accumulator, appends the
filtered list to it. -/
theorem excludePeer_loop (peers acc : List α) (peer : α) :
    peers.foldl
      (fun otherPeers p =>
        if NetAddr.String p ≠ NetAddr.String peer then otherPeers ++ [p] else otherPeers)
      acc
    = acc ++ peers.filter (fun q => decide (NetAddr.String q ≠ NetAddr.String peer)) := by
  induction peers generalizing acc with
  | nil => simp
  | cons q rest ih =>
    rw [List.foldl_cons, ih]
    by_cases h : NetAddr.String q = NetAddr.String peer
    · simp [h]
    · simp [h]

/-- The function `excludePeer` computes a filter. -/
theorem excludePeer_filter (peers : List α) (peer : α) :
    excludePeer peers peer
      = peers.filter (fun q => decide (NetAddr.String q ≠ NetAddr.String peer)) := by
  unfold excludePeer
  rw [excludePeer_loop]
  rfl

/-- The function `peerContained` decides membership up to `String()`. -/
theorem peerContained_true_iff (peers : List α) (peer : α) :
    peerContained peers peer = true
      ↔ ∃ q, q ∈ peers ∧ NetAddr.String q = NetAddr.String peer := by
  induction peers with
  | nil => simp [peerContained]
  | cons p rest ih =>
    unfold peerContained
    by_cases h : NetAddr.String p = NetAddr.String peer
    · simp [h]
    · simp [h, ih]

end PeerLemmas

/-! ## Fixed-width integers: lemmas -/

/-- The conversion `byte(v)` keeps `v` modulo 256. -/
theorem byte_val (v : Nat) : (byte v).val = v % 256 := rfl

/-- The eight bytes that `uint64ToBytes` returns. -/
theorem uint64ToBytes_eq (u : Nat) :
    uint64ToBytes u
      = [byte (u >>> 56), byte (u >>> 48), byte (u >>> 40), byte (u >>> 32),
         byte (u >>> 24), byte (u >>> 16), byte (u >>> 8), byte u] := by
  simp [uint64ToBytes, PutUint64]

/-- Or-ing a value shifted past all the bits of `acc` adds it. -/
theorem or_shiftLeft_of_lt (acc b k : Nat) (h : acc < 2 ^ k) :
    acc ||| b <<< k = acc + b * 2 ^ k := by
  rw [Nat.shiftLeft_eq, Nat.lor_comm, Nat.mul_comm b, ← Nat.mul_add_lt_is_or h, Nat.add_comm]

/-- The or of the shifted bytes in `Uint64` is their weighted sum. -/
theorem Uint64_eq_sum (b0 b1 b2 b3 b4 b5 b6 b7 : Byte) (rest : List Byte) :
    Uint64 (b0 :: b1 :: b2 :: b3 :: b4 :: b5 :: b6 :: b7 :: rest)
      = some (b7.val + b6.val * 2 ^ 8 + b5.val * 2 ^ 16 + b4.val * 2 ^ 24
          + b3.val * 2 ^ 32 + b2.val * 2 ^ 40 + b1.val * 2 ^ 48 + b0.val * 2 ^ 56) := by
  have h0 := b0.isLt
  have h1 := b1.isLt
  have h2 := b2.isLt
  have h3 := b3.isLt
  have h4 := b4.isLt
  have h5 := b5.isLt
  have h6 := b6.isLt
  have h7 := b7.isLt
  simp only [Uint64]
  rw [or_shiftLeft_of_lt _ _ 8 (by omega), or_shiftLeft_of_lt _ _ 16 (by omega),
    or_shiftLeft_of_lt _ _ 24 (by omega), or_shiftLeft_of_lt _ _ 32 (by omega),
    or_shiftLeft_of_lt _ _ 40 (by omega), or_shiftLeft_of_lt _ _ 48 (by omega),
    or_shiftLeft_of_lt _ _ 56 (by omega)]

/-- The loop of `bigEndianValue`, started from any accumulator. -/
theorem bigEndianValue_loop (l : List Byte) (acc : Nat) :
    l.foldl (fun acc d => acc * 256 + d.val) acc
      = acc * 256 ^ l.length + bigEndianValue l := by
  unfold bigEndianValue
  induction l generalizing acc with
  | nil => simp
  | cons d rest ih =>
    rw [List.foldl_cons, List.foldl_cons, ih, ih (0 * 256 + d.val), List.length_cons, pow_succ]
    ring

/-- The leading byte weighs `256 ^ length` of what follows it. -/
theorem bigEndianValue_cons (d : Byte) (l : List Byte) :
    bigEndianValue (d :: l) = d.val * 256 ^ l.length + bigEndianValue l := by
  conv_lhs => unfold bigEndianValue
  rw [List.foldl_cons, bigEndianValue_loop]
  simp

/-- A numeral of `n` bytes is below `256 ^ n`. -/
theorem bigEndianValue_lt (l : List Byte) : bigEndianValue l < 256 ^ l.length := by
  induction l with
  | nil => simp [bigEndianValue]
  | cons d rest ih =>
    rw [bigEndianValue_cons, List.length_cons, pow_succ]
    have hd := d.isLt
    nlinarith

/-- On byte sequences of one length, the lexicographic order is the order of the
big-endian values. -/
theorem lex_iff_bigEndianValue_lt (l₁ l₂ : List Byte) (h : l₁.length = l₂.length) :
    List.Lex (fun a b : Byte => a < b) l₁ l₂ ↔ bigEndianValue l₁ < bigEndianValue l₂ := by
  induction l₁ generalizing l₂ with
  | nil =>
    cases l₂ with
    | nil => simp [bigEndianValue]
    | cons b bs => simp at h
  | cons a as ih =>
    cases l₂ with
    | nil => simp at h
    | cons b bs =>
      have hlen : as.length = bs.length := by simpa using h
      rw [bigEndianValue_cons, bigEndianValue_cons, hlen]
      have h1 := bigEndianValue_lt as
      have h2 := bigEndianValue_lt bs
      rw [hlen] at h1
      have hpos : 0 < 256 ^ bs.length := by positivity
      constructor
      · intro hl
        cases hl with
        | cons hrest =>
          have := (ih bs hlen).mp hrest
          omega
        | rel hab =>
          have hab' : a.val + 1 ≤ b.val := hab
          have := Nat.mul_le_mul_right (256 ^ bs.length) hab'
          rw [Nat.add_mul] at this
          omega
      · intro hv
        rcases Nat.lt_trichotomy a.val b.val with hab | hab | hab
        · exact List.Lex.rel hab
        · have hab' : a = b := Fin.ext hab
          subst hab'
          exact List.Lex.cons ((ih bs hlen).mpr (by omega))
        · exfalso
          have hab' : b.val + 1 ≤ a.val := hab
          have := Nat.mul_le_mul_right (256 ^ bs.length) hab'
          rw [Nat.add_mul] at this
          omega

/-- The bytes of `uint64ToBytes x` are the big-endian numeral of `x`. -/
theorem bigEndianValue_uint64ToBytes (x : Nat) (h : x < 2 ^ 64) :
    bigEndianValue (uint64ToBytes x) = x := by
  rw [uint64ToBytes_eq]
  simp only [bigEndianValue, List.foldl_cons, List.foldl_nil, byte_val, Nat.shiftRight_eq_div_pow]
  omega

/-- The function `uint64ToBytes` returns eight bytes. -/
theorem uint64ToBytes_length (x : Nat) : (uint64ToBytes x).length = 8 := by
  rw [uint64ToBytes_eq]; rfl

/-! ## MessagePack: lemmas -/

/-- Reading as many bytes as a prefix has returns the prefix and the rest. -/
theorem readn_append (l rest : List Byte) :
    readn l.length (l ++ rest) = .ok (l, rest) := by
  simp [readn]

/-- The one-byte header of a short byte string is read back as its length. -/
theorem fixraw_header (l : Nat) (h : l < 32) :
    (byte (0xa0 ||| l)).val ≠ 0xc0
      ∧ (0xa0 ≤ (byte (0xa0 ||| l)).val ∧ (byte (0xa0 ||| l)).val ≤ 0xbf)
      ∧ (byte (0xa0 ||| l)).val &&& 0x1f = l := by
  interval_cases l <;> decide

/-- The one-byte header of a short array is read back as its length. -/
theorem fixarray_header (l : Nat) (h : l < 16) :
    (byte (0x90 ||| l)).val ≠ 0xc0
      ∧ (0x90 ≤ (byte (0x90 ||| l)).val ∧ (byte (0x90 ||| l)).val ≤ 0x9f)
      ∧ (byte (0x90 ||| l)).val &&& 0x0f = l := by
  interval_cases l <;> decide

/-- A length below `2 ^ 16` survives `writeUint16`. -/
theorem bigEndianValue_writeUint16 (l : Nat) (h : l < 65536) :
    bigEndianValue (writeUint16 (l % 2 ^ 16)) = l := by
  simp only [writeUint16, bigEndianValue, List.foldl_cons, List.foldl_nil, byte_val,
    Nat.shiftRight_eq_div_pow]
  omega

/-- A length below `2 ^ 32` survives `writeUint32`. -/
theorem bigEndianValue_writeUint32 (l : Nat) (h : l < 2 ^ 32) :
    bigEndianValue (writeUint32 (l % 2 ^ 32)) = l := by
  simp only [writeUint32, bigEndianValue, List.foldl_cons, List.foldl_nil, byte_val,
    Nat.shiftRight_eq_div_pow]
  omega

/-- Reading two bytes returns a 16-bit length field. -/
theorem readn_writeUint16 (v : Nat) (rest : List Byte) :
    readn 2 (writeUint16 v ++ rest) = .ok (writeUint16 v, rest) :=
  readn_append (writeUint16 v) rest

/-- Reading four bytes returns a 32-bit length field. -/
theorem readn_writeUint32 (v : Nat) (rest : List Byte) :
    readn 4 (writeUint32 v ++ rest) = .ok (writeUint32 v, rest) :=
  readn_append (writeUint32 v) rest

/-- Decoding an encoded byte string gives the string back and leaves what
follows it. -/
theorem decodeBytes_encodeStringBytes (bs rest : List Byte) (h : bs.length < 2 ^ 32) :
    decodeBytes (encodeStringBytes bs ++ rest) = .ok (bs, rest) := by
  unfold encodeStringBytes writeContainerLen
  by_cases h1 : bs.length < 32
  · obtain ⟨hn, hr, hv⟩ := fixraw_header bs.length h1
    simp only [h1, if_true, List.singleton_append, List.cons_append, List.nil_append, decodeBytes,
      hn, if_false, hr, and_self, hv, List.append_assoc]
    exact readn_append bs rest
  · by_cases h2 : bs.length < 65536
    · have hb : (byte 0xda).val = 0xda := rfl
      simp only [h1, h2, if_true, if_false, List.cons_append, decodeBytes, hb, List.append_assoc]
      simp only [readSized, readn_writeUint16, bigEndianValue_writeUint16 _ h2]
      simp [readn_append]
    · have hb : (byte 0xdb).val = 0xdb := rfl
      simp only [h1, h2, if_false, List.cons_append, decodeBytes, hb, List.append_assoc]
      simp only [readSized, readn_writeUint32, bigEndianValue_writeUint32 _ h]
      simp [readn_append]

/-- Decoding as many byte strings as were encoded gives them back in order. -/
theorem decodeElems_encode (l : List (List Byte)) (rest : List Byte)
    (h : ∀ bs ∈ l, bs.length < 2 ^ 32) :
    decodeElems l.length ((l.map encodeStringBytes).flatten ++ rest) = .ok (l, rest) := by
  induction l with
  | nil => simp [decodeElems]
  | cons bs tl ih =>
    have hbs : bs.length < 2 ^ 32 := h bs (by simp)
    have htl : ∀ b ∈ tl, b.length < 2 ^ 32 := fun b hb => h b (by simp [hb])
    simp only [List.map_cons, List.flatten_cons, List.length_cons, List.append_assoc, decodeElems]
    rw [decodeBytes_encodeStringBytes bs _ hbs]
    simp only [ih htl]

/-- The length of a container in the one-byte form. -/
theorem readContainerLen_fix (fixMin b16 b32 : Nat) (bd : Byte) (rest : List Byte)
    (h : fixMin ≤ bd.val ∧ bd.val ≤ fixMin + 15) :
    readContainerLen fixMin b16 b32 bd rest = .ok (bd.val &&& 0x0f, rest) := by
  simp only [readContainerLen, h, and_self, if_true]

/-- The length of a container in the 16-bit form. -/
theorem readContainerLen_len16 (fixMin b16 b32 : Nat) (bd : Byte) (len rest : List Byte)
    (hfix : ¬ (fixMin ≤ bd.val ∧ bd.val ≤ fixMin + 15)) (hbd : bd.val = b16)
    (hl : len.length = 2) :
    readContainerLen fixMin b16 b32 bd (len ++ rest) = .ok (bigEndianValue len, rest) := by
  have hr : readn 2 (len ++ rest) = .ok (len, rest) := by
    rw [← hl]; exact readn_append len rest
  unfold readContainerLen
  rw [if_neg hfix, if_pos hbd, hr]

/-- The length of a container in the 32-bit form. -/
theorem readContainerLen_len32 (fixMin b16 b32 : Nat) (bd : Byte) (len rest : List Byte)
    (hfix : ¬ (fixMin ≤ bd.val ∧ bd.val ≤ fixMin + 15)) (h16 : bd.val ≠ b16)
    (hbd : bd.val = b32) (hl : len.length = 4) :
    readContainerLen fixMin b16 b32 bd (len ++ rest) = .ok (bigEndianValue len, rest) := by
  have hr : readn 4 (len ++ rest) = .ok (len, rest) := by
    rw [← hl]; exact readn_append len rest
  unfold readContainerLen
  rw [if_neg hfix, if_neg h16, if_pos hbd, hr]

/-- On a descriptor that is neither `nil` nor that of a map, the list is read
as an array. -/
theorem decodeContainer_array (bd : Byte) (rest : List Byte) (hnil : bd.val ≠ 0xc0)
    (hmap : ¬ ((0x80 ≤ bd.val ∧ bd.val ≤ 0x8f) ∨ bd.val = 0xde ∨ bd.val = 0xdf)) :
    decodeContainer (bd :: rest)
      = match readContainerLen 0x90 0xdc 0xdd bd rest with
        | .error e => .error e
        | .ok (n, rest') => decodeElems n rest' := by
  simp only [decodeContainer, hnil, if_false, hmap]

/-- On the descriptor of a map, the keys and values are read as the elements. -/
theorem decodeContainer_map (bd : Byte) (rest : List Byte)
    (hmap : (0x80 ≤ bd.val ∧ bd.val ≤ 0x8f) ∨ bd.val = 0xde ∨ bd.val = 0xdf) :
    decodeContainer (bd :: rest)
      = match readContainerLen 0x80 0xde 0xdf bd rest with
        | .error e => .error e
        | .ok (n, rest') => decodeElems (2 * n) rest' := by
  have hnil : bd.val ≠ 0xc0 := by omega
  simp only [decodeContainer, hnil, if_false, hmap, if_true]

/-- Decoding an encoded list of byte strings gives the list back and reads the
encoding to its end, when the lengths fit their 32-bit fields. -/
theorem decodeContainer_encodeSlice (l : List (List Byte)) (hl : l.length < 2 ^ 32)
    (h : ∀ bs ∈ l, bs.length < 2 ^ 32) :
    decodeContainer (encodeSlice l) = .ok (l, []) := by
  cases l with
  | nil => simp [encodeSlice, decodeContainer, byte_val]
  | cons x xs =>
    have key := decodeElems_encode (x :: xs) [] h
    rw [List.append_nil] at key
    simp only [encodeSlice]
    generalize (x :: xs) = l at hl key
    unfold writeContainerLen
    by_cases h1 : l.length < 16
    · obtain ⟨hn, hr, hv⟩ := fixarray_header l.length h1
      simp only [h1, if_true, List.singleton_append]
      rw [decodeContainer_array _ _ hn (by omega),
        readContainerLen_fix _ _ _ _ _ (by omega), hv]
      exact key
    · by_cases h2 : l.length < 65536
      · have hb : (byte 0xdc).val = 0xdc := rfl
        simp only [h1, h2, if_true, if_false, List.cons_append]
        rw [decodeContainer_array _ _ (by rw [hb]; decide) (by rw [hb]; decide),
          readContainerLen_len16 _ _ _ _ (writeUint16 _) _ (by rw [hb]; decide) hb rfl,
          bigEndianValue_writeUint16 _ h2]
        exact key
      · have hb : (byte 0xdd).val = 0xdd := rfl
        simp only [h1, h2, if_false, List.cons_append]
        rw [decodeContainer_array _ _ (by rw [hb]; decide) (by rw [hb]; decide),
          readContainerLen_len32 _ _ _ _ (writeUint32 _) _ (by rw [hb]; decide)
            (by rw [hb]; decide) hb rfl,
          bigEndianValue_writeUint32 _ hl]
        exact key

/-- Decoding an encoded list of byte strings gives the list back, when the
lengths fit their 32-bit fields. -/
theorem decodeSlice_encodeSlice (l : List (List Byte)) (hl : l.length < 2 ^ 32)
    (h : ∀ bs ∈ l, bs.length < 2 ^ 32) :
    decodeSlice (encodeSlice l) = .ok l := by
  simp only [decodeSlice, decodeContainer_encodeSlice l hl h]

/-- The loop of `encodePeers` appends the encodings in order. -/
theorem encodePeers_loop {α : Type} (peers : List α) (trans : Transport α)
    (acc : List (List Byte)) :
    peers.foldl (fun encPeers p => encPeers ++ [trans.EncodePeer p]) acc
      = acc ++ peers.map trans.EncodePeer := by
  induction peers generalizing acc with
  | nil => simp
  | cons p rest ih => simp [ih]

/-- The loop of `decodePeers` appends the decoded peers in order. -/
theorem decodePeers_loop {α : Type} (encPeers : List (List Byte)) (trans : Transport α)
    (acc : List α) :
    encPeers.foldl (fun peers enc => peers ++ [trans.DecodePeer enc]) acc
      = acc ++ encPeers.map trans.DecodePeer := by
  induction encPeers generalizing acc with
  | nil => simp
  | cons p rest ih => simp [ih]

/-- The function `encodePeers` never panics and returns the encoding of the
mapped list. -/
theorem encodePeers_eq {α : Type} (peers : List α) (trans : Transport α) :
    encodePeers peers trans = .ok (encodeSlice (peers.map trans.EncodePeer)) := by
  simp [encodePeers, encodeMsgPack, encodePeers_loop]

/-- A byte string of `2 ^ 32` bytes gets the length field `0`, and is read back
as the empty string. -/
theorem decodeBytes_oversize (bs rest : List Byte) (h : bs.length = 4294967296) :
    decodeBytes (encodeStringBytes bs ++ rest) = .ok ([], bs ++ rest) := by
  have e : encodeStringBytes bs = byte 0xdb :: (writeUint32 0 ++ bs) := by
    simp [encodeStringBytes, writeContainerLen, h]
  have e1 : (byte 0xdb).val = 0xdb := rfl
  have e2 : bigEndianValue (writeUint32 0) = 0 := by decide
  rw [e]
  simp only [List.cons_append, List.append_assoc, decodeBytes, e1, readSized, readn_writeUint32, e2]
  simp [readn]

/-- A single encoded peer of `2 ^ 32` bytes is decoded as one empty encoding. -/
theorem decodePeers_oversize (bs : List Byte) (h : bs.length = 4294967296) :
    decodePeers (encodeSlice [bs]) identityTransport = .ok [[]] := by
  have e : encodeSlice [bs] = byte 0x91 :: (encodeStringBytes bs ++ []) := by
    simp [encodeSlice, writeContainerLen]
  have e1 : (byte 0x91).val = 0x91 := rfl
  have hd : decodeContainer (byte 0x91 :: (encodeStringBytes bs ++ [])) = .ok ([[]], bs) := by
    rw [decodeContainer_array _ _ (by rw [e1]; decide) (by rw [e1]; decide),
      readContainerLen_fix _ _ _ _ _ (by rw [e1]; decide)]
    have e2 : (byte 0x91).val &&& 0x0f = 1 := rfl
    simp only [e2, decodeElems, decodeBytes_oversize bs [] h]
    rw [List.append_nil]
  rw [e]
  simp only [decodePeers, decodeMsgPack, decodeSlice, hd]
  simp [identityTransport]

/-! ## Configuration codec: the stated property -/

/-- Claim C1, as amended: for every list `S` of fewer than `2 ^ 32` peers and
every transport whose per-peer codec satisfies `DecodePeer (EncodePeer p) = p`
for every peer and encodes each peer of `S` in fewer than `2 ^ 32` bytes,
`encodePeers` returns a buffer, and `decodePeers` of that buffer returns `S`:
same length, same elements, same order. The empty list is included. -/
theorem decodePeers_encodePeers_bounded {α : Type} (S : List α) (t : Transport α)
    (hcodec : ∀ p, t.DecodePeer (t.EncodePeer p) = p)
    (hlen : S.length < 2 ^ 32)
    (hsize : ∀ p ∈ S, (t.EncodePeer p).length < 2 ^ 32) :
    ∃ buf, encodePeers S t = .ok buf ∧ decodePeers buf t = .ok S := by
  refine ⟨_, encodePeers_eq S t, ?_⟩
  have hd : decodeSlice (encodeSlice (S.map t.EncodePeer)) = .ok (S.map t.EncodePeer) := by
    apply decodeSlice_encodeSlice
    · simpa using hlen
    · intro bs hbs
      rw [List.mem_map] at hbs
      obtain ⟨p, hp, rfl⟩ := hbs
      exact hsize p hp
  simp only [decodePeers, decodeMsgPack, hd, decodePeers_loop, List.nil_append, List.map_map]
  congr 1
  conv_rhs => rw [← List.map_id S]
  apply List.map_congr_left
  intro p _
  exact hcodec p

/-- Witness of claim C1 at the configuration `[A, B, C]` with the identity
per-peer codec. -/
theorem decodePeers_encodePeers_bounded_witness :
    (∀ p, identityTransport.DecodePeer (identityTransport.EncodePeer p) = p)
      ∧ ([[65], [66], [67]] : List (List Byte)).length < 2 ^ 32
      ∧ (∀ p ∈ ([[65], [66], [67]] : List (List Byte)),
          (identityTransport.EncodePeer p).length < 2 ^ 32)
      ∧ ∃ buf, encodePeers ([[65], [66], [67]] : List (List Byte)) identityTransport = .ok buf
          ∧ decodePeers buf identityTransport = .ok [[65], [66], [67]] :=
  ⟨fun _ => rfl, by decide, by decide,
   decodePeers_encodePeers_bounded [[65], [66], [67]] identityTransport
     (fun _ => rfl) (by decide) (by decide)⟩

/-- Counterexample to claim C1 as stated: with the identity per-peer codec, the
list of one peer whose encoding has `2 ^ 32` bytes is encoded without a panic,
and decoding the buffer returns a list of one empty encoding, not the list. -/
theorem decodePeers_encodePeers_oversize :
    (∀ p, identityTransport.DecodePeer (identityTransport.EncodePeer p) = p)
      ∧ ∃ buf, encodePeers [List.replicate 4294967296 (0 : Byte)] identityTransport = .ok buf
          ∧ decodePeers buf identityTransport = .ok [[]]
          ∧ decodePeers buf identityTransport
              ≠ .ok [List.replicate 4294967296 (0 : Byte)] := by
  have hlen : (List.replicate 4294967296 (0 : Byte)).length = 4294967296 :=
    List.length_replicate _ _
  generalize List.replicate 4294967296 (0 : Byte) = bs at hlen
  refine ⟨fun _ => rfl, _, encodePeers_eq _ _, decodePeers_oversize bs hlen, ?_⟩
  have hd : decodePeers (encodeSlice ([bs].map identityTransport.EncodePeer)) identityTransport
      = .ok [[]] := decodePeers_oversize bs hlen
  rw [hd]
  intro hc
  have hc' : ([[]] : List (List Byte)) = [bs] := Except.ok.inj hc
  have : bs = [] := by simpa using hc'.symm
  rw [this] at hlen
  simp at hlen

/-! ## Peer lists: the stated properties -/

section PeerTheorems

variable {α : Type} [NetAddr α]

/-- Claim C2: when `peerContained S p` is false, `addUniquePeer S p` is `S` with
`p` appended: its length is `len(S)+1`, its last element is `p`, and its first
`len(S)` elements are those of `S` in order. -/
theorem addUniquePeer_of_not_contained (S : List α) (p : α)
    (h : peerContained S p = false) :
    (addUniquePeer S p).length = S.length + 1
      ∧ (addUniquePeer S p).getLast? = some p
      ∧ (addUniquePeer S p).take S.length = S
      ∧ addUniquePeer S p = S ++ [p] := by
  have e : addUniquePeer S p = S ++ [p] := by simp [addUniquePeer, h]
  rw [e]
  simp

/-- Claim C3: when some element of `S` has the same `String()` as `p`,
`addUniquePeer S p` is `S` itself. -/
theorem addUniquePeer_of_contained (S : List α) (p : α)
    (h : ∃ q, q ∈ S ∧ NetAddr.String q = NetAddr.String p) :
    addUniquePeer S p = S := by
  have hc : peerContained S p = true := (peerContained_true_iff S p).mpr h
  simp [addUniquePeer, hc]

/-- Claim C4: `excludePeer S p` is `S` filtered by "the element's `String()`
differs from that of `p`": every occurrence of `p` is removed, and nothing else
is removed or moved. -/
theorem excludePeer_eq_filter (S : List α) (p : α) :
    excludePeer S p = S.filter (fun q => decide (NetAddr.String q ≠ NetAddr.String p)) :=
  excludePeer_filter S p

/-- Claim C5: `excludePeer` is idempotent. -/
theorem excludePeer_idempotent (S : List α) (p : α) :
    excludePeer (excludePeer S p) p = excludePeer S p := by
  rw [excludePeer_filter (excludePeer S p) p, excludePeer_filter S p, List.filter_filter]
  simp

/-- Claim C6: `peerContained S p` is true exactly when some element of `S` has
the same `String()` as `p`; it is false for the empty list. -/
theorem peerContained_iff (S : List α) (p : α) :
    (peerContained S p = true ↔ ∃ q, q ∈ S ∧ NetAddr.String q = NetAddr.String p)
      ∧ peerContained ([] : List α) p = false :=
  ⟨peerContained_true_iff S p, rfl⟩

/-- Claim C7: both mutating operations preserve the invariant of a peer set:
for a duplicate-free `S`, `addUniquePeer S p` and `excludePeer S p` are
duplicate-free. -/
theorem duplicateFree_preserved (S : List α) (p : α) (h : duplicateFree S) :
    duplicateFree (addUniquePeer S p) ∧ duplicateFree (excludePeer S p) := by
  constructor
  · unfold addUniquePeer
    cases hc : peerContained S p with
    | true => simpa using h
    | false =>
      have hn : ¬ ∃ q, q ∈ S ∧ NetAddr.String q = NetAddr.String p := by
        rw [← peerContained_true_iff, hc]; simp
      unfold duplicateFree at h ⊢
      simp only [Bool.false_eq_true, if_false, List.map_append, List.map_cons, List.map_nil]
      rw [List.nodup_append]
      refine ⟨h, List.nodup_singleton _, ?_⟩
      intro s hs hs'
      rw [List.mem_singleton] at hs'
      rw [List.mem_map] at hs
      obtain ⟨q, hq, hqs⟩ := hs
      exact hn ⟨q, hq, hqs.trans hs'⟩
  · rw [excludePeer_filter]
    unfold duplicateFree at h ⊢
    exact (List.filter_sublist S).map _ |>.nodup h

end PeerTheorems

/-- Witness of claim C2 at `S = [A, B]`, `p = C`. -/
theorem addUniquePeer_of_not_contained_witness :
    peerContained [InmemAddr.mk "A", InmemAddr.mk "B"] (InmemAddr.mk "C") = false
      ∧ (addUniquePeer [InmemAddr.mk "A", InmemAddr.mk "B"] (InmemAddr.mk "C")).length = 3
      ∧ addUniquePeer [InmemAddr.mk "A", InmemAddr.mk "B"] (InmemAddr.mk "C")
          = [InmemAddr.mk "A", InmemAddr.mk "B", InmemAddr.mk "C"] :=
  have h := addUniquePeer_of_not_contained
    [InmemAddr.mk "A", InmemAddr.mk "B"] (InmemAddr.mk "C") (by decide)
  ⟨by decide, h.1, h.2.2.2⟩

/-- Witness of claim C3 at `S = [A, B]`, `p = A`. -/
theorem addUniquePeer_of_contained_witness :
    (∃ q, q ∈ [InmemAddr.mk "A", InmemAddr.mk "B"]
        ∧ NetAddr.String q = NetAddr.String (InmemAddr.mk "A"))
      ∧ addUniquePeer [InmemAddr.mk "A", InmemAddr.mk "B"] (InmemAddr.mk "A")
          = [InmemAddr.mk "A", InmemAddr.mk "B"] :=
  ⟨⟨InmemAddr.mk "A", by simp, rfl⟩,
   addUniquePeer_of_contained [InmemAddr.mk "A", InmemAddr.mk "B"] (InmemAddr.mk "A")
     ⟨InmemAddr.mk "A", by simp, rfl⟩⟩

/-- Witness of claim C7 at `S = [A, B]`, `p = B`. -/
theorem duplicateFree_preserved_witness :
    duplicateFree [InmemAddr.mk "A", InmemAddr.mk "B"]
      ∧ duplicateFree (addUniquePeer [InmemAddr.mk "A", InmemAddr.mk "B"] (InmemAddr.mk "B"))
      ∧ duplicateFree (excludePeer [InmemAddr.mk "A", InmemAddr.mk "B"] (InmemAddr.mk "B")) :=
  ⟨by decide,
   duplicateFree_preserved [InmemAddr.mk "A", InmemAddr.mk "B"] (InmemAddr.mk "B") (by decide)⟩

/-! ## Fixed-width integers: the stated properties -/

/-- Claim C8: for every unsigned 64-bit integer `x`, `bytesToUint64` of
`uint64ToBytes x` returns `x`. -/
theorem bytesToUint64_uint64ToBytes (x : Nat) (h : x < 2 ^ 64) :
    bytesToUint64 (uint64ToBytes x) = some x := by
  rw [uint64ToBytes_eq, bytesToUint64, Uint64_eq_sum]
  simp only [byte_val, Nat.shiftRight_eq_div_pow]
  congr 1
  omega

/-- Witness of claim C8 at `x = 2 ^ 64 - 1`. -/
theorem bytesToUint64_uint64ToBytes_witness :
    18446744073709551615 < 2 ^ 64
      ∧ bytesToUint64 (uint64ToBytes 18446744073709551615) = some 18446744073709551615 :=
  ⟨by decide, bytesToUint64_uint64ToBytes 18446744073709551615 (by decide)⟩

/-- Claim C9: `uint64ToBytes` is strictly order-preserving: for unsigned 64-bit
integers `x₁` and `x₂`, `x₁ < x₂` exactly when `uint64ToBytes x₁` is strictly
smaller than `uint64ToBytes x₂` in the lexicographic order of bytes. -/
theorem uint64ToBytes_lex_iff (x₁ x₂ : Nat) (h₁ : x₁ < 2 ^ 64) (h₂ : x₂ < 2 ^ 64) :
    x₁ < x₂ ↔ List.Lex (fun a b : Byte => a < b) (uint64ToBytes x₁) (uint64ToBytes x₂) := by
  rw [lex_iff_bigEndianValue_lt _ _ (by rw [uint64ToBytes_length, uint64ToBytes_length]),
    bigEndianValue_uint64ToBytes x₁ h₁, bigEndianValue_uint64ToBytes x₂ h₂]

/-- Witness of claim C9 at `x₁ = 255`, `x₂ = 256`. -/
theorem uint64ToBytes_lex_iff_witness :
    255 < 2 ^ 64 ∧ 256 < 2 ^ 64
      ∧ (255 < 256
          ↔ List.Lex (fun a b : Byte => a < b) (uint64ToBytes 255) (uint64ToBytes 256)) :=
  ⟨by decide, by decide, uint64ToBytes_lex_iff 255 256 (by decide) (by decide)⟩

/-- Claim C10: for every unsigned 64-bit integer `x`, `uint64ToBytes x` has
exactly eight bytes, byte `i` is `(x / 256 ^ (7 - i)) mod 256`, `x` is the sum of
the bytes weighted by `256 ^ (7 - i)`, and `uint64ToBytes 1` is
`[0, 0, 0, 0, 0, 0, 0, 1]`. -/
theorem uint64ToBytes_bigEndian (x : Nat) (h : x < 2 ^ 64) :
    (uint64ToBytes x).length = 8
      ∧ (∀ i, i < 8 → ((uint64ToBytes x).map Fin.val)[i]? = some (x / 256 ^ (7 - i) % 256))
      ∧ x = ((List.range 8).map
              (fun i => ((uint64ToBytes x).map Fin.val).getD i 0 * 256 ^ (7 - i))).sum
      ∧ uint64ToBytes 1 = [0, 0, 0, 0, 0, 0, 0, 1] := by
  refine ⟨uint64ToBytes_length x, ?_, ?_, by decide⟩
  · intro i hi
    rw [uint64ToBytes_eq]
    interval_cases i <;> simp [byte_val, Nat.shiftRight_eq_div_pow]
  · rw [uint64ToBytes_eq]
    simp [List.range_succ, byte_val, Nat.shiftRight_eq_div_pow]
    omega

/-- Witness of claim C10 at `x = 1`. -/
theorem uint64ToBytes_bigEndian_witness :
    1 < 2 ^ 64 ∧ (uint64ToBytes 1).length = 8
      ∧ uint64ToBytes 1 = [0, 0, 0, 0, 0, 0, 0, 1] :=
  have h := uint64ToBytes_bigEndian 1 (by decide)
  ⟨by decide, h.1, h.2.2.2⟩

/-! ## Election timer: the stated properties -/

/-- The wrap-around of `int64` leaves a value in range as it is. -/
theorem wrapInt64_of_inRange (x : Int) (h₁ : -2 ^ 63 ≤ x) (h₂ : x < 2 ^ 63) :
    wrapInt64 x = x := by
  unfold wrapInt64
  omega

/-- Where the sum cannot overflow, the delay is in the documented range: for
`0 < minDelay <= 2 ^ 62` and `0 <= r < 2 ^ 63`, `randomTimeout` schedules a timer
whose delay is at least `minDelay` and strictly less than `2 * minDelay`. -/
theorem randomTimeout_in_range (minDelay r : Int)
    (hpos : 0 < minDelay) (hmax : minDelay ≤ 2 ^ 62) (hr₀ : 0 ≤ r) (_hr₁ : r < 2 ^ 63) :
    ∃ d, randomTimeout minDelay r = .ok (TimeoutCh.after d)
      ∧ minDelay ≤ d ∧ d < 2 * minDelay := by
  have hne : minDelay ≠ 0 := by omega
  have h₀ : 0 ≤ Int.tmod r minDelay := Int.tmod_nonneg minDelay hr₀
  have h₁ : Int.tmod r minDelay < minDelay := Int.tmod_lt_of_pos r hpos
  refine ⟨minDelay + Int.tmod r minDelay, ?_, by omega, by omega⟩
  simp only [randomTimeout, goRem, hne, if_false]
  rw [wrapInt64_of_inRange _ (by omega) (by omega)]

/-- Claim C11 fails on the code: for `minDelay = 2 ^ 62 + 1` and `r = 2 ^ 62`,
both in the range of the claim, the sum `minDelay + r % minDelay` exceeds
`2 ^ 63 - 1` and wraps around: the delay that `randomTimeout` schedules is
`-(2 ^ 63 - 1)`, which is not at least `minDelay`, against the claim and against
the comment of the function, "a value that is between the minVal and 2x
minVal". -/
theorem randomTimeout_range_overflow :
    (0 : Int) < 2 ^ 62 + 1 ∧ (2 ^ 62 + 1 : Int) < 2 ^ 63
      ∧ (0 : Int) ≤ 2 ^ 62 ∧ (2 ^ 62 : Int) < 2 ^ 63
      ∧ randomTimeout (2 ^ 62 + 1) (2 ^ 62) = .ok (TimeoutCh.after (-9223372036854775807))
      ∧ ¬ ((2 ^ 62 + 1 : Int) ≤ -9223372036854775807) := by
  exact ⟨by decide, by decide, by decide, by decide, rfl, by decide⟩

/-- Claim C12: `randomTimeout 0` returns the nil channel, which never fires, and
is not an error; for no input does `randomTimeout` fault, the remainder being
taken only when `minDelay` is not zero. -/
theorem randomTimeout_zero_never :
    (∀ r, randomTimeout 0 r = .ok TimeoutCh.never)
      ∧ (∀ minDelay r, ∃ ch, randomTimeout minDelay r = .ok ch)
      ∧ (∀ minDelay r e, randomTimeout minDelay r ≠ .error e) := by
  have total : ∀ minDelay r, ∃ ch, randomTimeout minDelay r = .ok ch := by
    intro minDelay r
    by_cases h : minDelay = 0
    · exact ⟨TimeoutCh.never, by simp [randomTimeout, h]⟩
    · exact ⟨TimeoutCh.after (wrapInt64 (minDelay + Int.tmod r minDelay)),
        by simp [randomTimeout, goRem, h]⟩
  refine ⟨fun r => by simp [randomTimeout], total, ?_⟩
  intro minDelay r e he
  obtain ⟨ch, hch⟩ := total minDelay r
  rw [hch] at he
  cases he

/-! ## Minimum and maximum: the stated property -/

/-- Claim C20: `min a b` is the minimum and `max a b` the maximum of the two:
each is one of `a` and `b`, `min a b` is at most both, and `max a b` is at least
both. -/
theorem min_max_spec (a b : Nat) :
    (min a b = a ∨ min a b = b) ∧ min a b ≤ a ∧ min a b ≤ b
      ∧ (max a b = a ∨ max a b = b) ∧ a ≤ max a b ∧ b ≤ max a b := by
  unfold min max
  split_ifs <;> omega

/-! ## Peer lists and fixed-width integers: further properties -/

/-- Claim C17: adding a peer that is not contained and then excluding it gives
the list back: `excludePeer (addUniquePeer S p) p = S`. -/
theorem excludePeer_addUniquePeer {α : Type} [NetAddr α] (S : List α) (p : α)
    (h : peerContained S p = false) :
    excludePeer (addUniquePeer S p) p = S := by
  have hn : ∀ q, q ∈ S → NetAddr.String q ≠ NetAddr.String p := by
    intro q hq he
    have hc : peerContained S p = true := (peerContained_true_iff S p).mpr ⟨q, hq, he⟩
    rw [h] at hc
    cases hc
  have e : addUniquePeer S p = S ++ [p] := by simp [addUniquePeer, h]
  rw [e, excludePeer_filter, List.filter_append]
  have h₁ : S.filter (fun q => decide (NetAddr.String q ≠ NetAddr.String p)) = S := by
    rw [List.filter_eq_self]
    intro q hq
    simpa using hn q hq
  rw [h₁]
  simp

/-- Witness of claim C17 at `S = [A, B]`, `p = C`. -/
theorem excludePeer_addUniquePeer_witness :
    peerContained [InmemAddr.mk "A", InmemAddr.mk "B"] (InmemAddr.mk "C") = false
      ∧ excludePeer (addUniquePeer [InmemAddr.mk "A", InmemAddr.mk "B"] (InmemAddr.mk "C"))
          (InmemAddr.mk "C") = [InmemAddr.mk "A", InmemAddr.mk "B"] :=
  ⟨by decide,
   excludePeer_addUniquePeer [InmemAddr.mk "A", InmemAddr.mk "B"] (InmemAddr.mk "C")
     (by decide)⟩

/-- The value `Uint64` returns is the big-endian value of the first eight
bytes. -/
theorem Uint64_eq_bigEndianValue (b0 b1 b2 b3 b4 b5 b6 b7 : Byte) (rest : List Byte) :
    Uint64 (b0 :: b1 :: b2 :: b3 :: b4 :: b5 :: b6 :: b7 :: rest)
      = some (bigEndianValue [b0, b1, b2, b3, b4, b5, b6, b7]) := by
  rw [Uint64_eq_sum]
  simp only [bigEndianValue, List.foldl_cons, List.foldl_nil]
  congr 1
  omega

/-- Writing the big-endian value of eight bytes gives the eight bytes back. -/
theorem uint64ToBytes_bigEndianValue (b0 b1 b2 b3 b4 b5 b6 b7 : Byte) :
    uint64ToBytes (bigEndianValue [b0, b1, b2, b3, b4, b5, b6, b7])
      = [b0, b1, b2, b3, b4, b5, b6, b7] := by
  have h0 := b0.isLt
  have h1 := b1.isLt
  have h2 := b2.isLt
  have h3 := b3.isLt
  have h4 := b4.isLt
  have h5 := b5.isLt
  have h6 := b6.isLt
  have h7 := b7.isLt
  rw [uint64ToBytes_eq]
  simp only [bigEndianValue, List.foldl_cons, List.foldl_nil, Nat.shiftRight_eq_div_pow]
  simp only [List.cons.injEq, and_true]
  refine ⟨?_, ?_, ?_, ?_, ?_, ?_, ?_, ?_⟩ <;> apply Fin.ext <;> rw [byte_val] <;> omega

/-- Claim C18: `bytesToUint64` is defined exactly on inputs of at least eight
bytes: on fewer it panics; on at least eight it returns the big-endian value of
the first eight and ignores the others; and `uint64ToBytes` of the value gives
`b` back when `b` has exactly eight bytes. -/
theorem bytesToUint64_defined (b : List Byte) :
    (b.length < 8 → bytesToUint64 b = none)
      ∧ (8 ≤ b.length → bytesToUint64 b = some (bigEndianValue (b.take 8)))
      ∧ (8 ≤ b.length → ∀ more, bytesToUint64 (b.take 8 ++ more) = bytesToUint64 b)
      ∧ (b.length = 8 → ∃ v, bytesToUint64 b = some v ∧ uint64ToBytes v = b) := by
  match b with
  | b0 :: b1 :: b2 :: b3 :: b4 :: b5 :: b6 :: b7 :: rest =>
    refine ⟨?_, ?_, ?_, ?_⟩
    · intro h
      simp only [List.length_cons] at h
      omega
    · intro _
      exact Uint64_eq_bigEndianValue b0 b1 b2 b3 b4 b5 b6 b7 rest
    · intro _ more
      simp only [bytesToUint64, List.take_succ_cons, List.take_zero, List.cons_append,
        List.nil_append, Uint64_eq_sum]
    · intro h
      have hr : rest = [] := by
        apply List.eq_nil_of_length_eq_zero
        simpa using h
      subst hr
      exact ⟨_, Uint64_eq_bigEndianValue b0 b1 b2 b3 b4 b5 b6 b7 [],
        uint64ToBytes_bigEndianValue b0 b1 b2 b3 b4 b5 b6 b7⟩
  | [] | [_] | [_, _] | [_, _, _] | [_, _, _, _] | [_, _, _, _, _] | [_, _, _, _, _, _]
  | [_, _, _, _, _, _, _] =>
    refine ⟨fun _ => rfl, ?_, ?_, ?_⟩ <;> intro h <;> simp at h

/-- Witness of claim C18 at `b = [0, 0, 0, 0, 0, 0, 1, 2]`, at one byte fewer and
at one byte more. -/
theorem bytesToUint64_defined_witness :
    bytesToUint64 [0, 0, 0, 0, 0, 1, 2] = none
      ∧ bytesToUint64 [0, 0, 0, 0, 0, 0, 1, 2, 9] = some 258
      ∧ ∃ v, bytesToUint64 [0, 0, 0, 0, 0, 0, 1, 2] = some v
          ∧ uint64ToBytes v = [0, 0, 0, 0, 0, 0, 1, 2] :=
  ⟨(bytesToUint64_defined [0, 0, 0, 0, 0, 1, 2]).1 (by decide),
   (bytesToUint64_defined [0, 0, 0, 0, 0, 0, 1, 2, 9]).2.1 (by decide),
   (bytesToUint64_defined [0, 0, 0, 0, 0, 0, 1, 2]).2.2.2 (by decide)⟩

/-! ## Notifier: lemmas -/

/-- Two channel states with the same capacity, buffer length, blocked receivers
and closed flag are the same state. -/
theorem Chan.eq_of_fields (c d : Chan) (h₁ : c.cap = d.cap) (h₂ : c.len = d.len)
    (h₃ : c.recvq = d.recvq) (h₄ : c.closed = d.closed) : c = d := by
  cases c
  cases d
  simp only at h₁ h₂ h₃ h₄
  subst h₁ h₂ h₃ h₄
  rfl

/-- A send on an open channel with a blocked receiver is handed to the
receiver. -/
theorem asyncNotifyCh_handoff (σ : Chans) (a : Nat) (hopen : (σ a).closed = false)
    (hrecv : 0 < (σ a).recvq) :
    asyncNotifyCh σ (some a)
      = .ok (Function.update σ a
          ⟨(σ a).cap, (σ a).len, (σ a).recvq - 1, (σ a).closed, (σ a).len_le⟩) := by
  simp [asyncNotifyCh, hopen, hrecv]

/-- A send on an open channel with room and no blocked receiver adds one signal
to the buffer. -/
theorem asyncNotifyCh_room (σ : Chans) (a : Nat) (hopen : (σ a).closed = false)
    (hrecv : (σ a).recvq = 0) (h : (σ a).len < (σ a).cap) :
    asyncNotifyCh σ (some a)
      = .ok (Function.update σ a
          ⟨(σ a).cap, (σ a).len + 1, (σ a).recvq, (σ a).closed, h⟩) := by
  simp [asyncNotifyCh, hopen, hrecv, h]

/-- A send on an open channel without room and with no blocked receiver is
dropped. -/
theorem asyncNotifyCh_full (σ : Chans) (a : Nat) (hopen : (σ a).closed = false)
    (hrecv : (σ a).recvq = 0) (h : ¬ (σ a).len < (σ a).cap) :
    asyncNotifyCh σ (some a) = .ok σ := by
  simp [asyncNotifyCh, hopen, hrecv, h]

/-- The sends of `asyncNotify` to open channels all complete: of the `k` sends
to a channel, the first go to its blocked receivers, one each, and the others to
its buffer, as far as its capacity goes. -/
theorem asyncNotify_count (chans : List (Option Nat)) (σ : Chans)
    (hopen : ∀ a, some a ∈ chans → (σ a).closed = false) :
    ∃ σ', asyncNotify σ chans = .ok σ'
      ∧ ∀ a, (σ' a).cap = (σ a).cap ∧ (σ' a).closed = (σ a).closed
          ∧ (σ' a).recvq = (σ a).recvq - chans.count (some a)
          ∧ (σ' a).len = if (σ a).len + (chans.count (some a) - (σ a).recvq) ≤ (σ a).cap
              then (σ a).len + (chans.count (some a) - (σ a).recvq) else (σ a).cap := by
  induction chans generalizing σ with
  | nil =>
    refine ⟨σ, rfl, fun a => ⟨rfl, rfl, by simp, ?_⟩⟩
    have := (σ a).len_le
    simp [this]
  | cons ch rest ih =>
    have hrest : ∀ a, some a ∈ rest → (σ a).closed = false :=
      fun a ha => hopen a (List.mem_cons_of_mem _ ha)
    cases ch with
    | none =>
      obtain ⟨σ', hσ', hall⟩ := ih σ hrest
      refine ⟨σ', by simp [asyncNotify, asyncNotifyCh, hσ'], fun a => ?_⟩
      have hc : (none :: rest).count (some a) = rest.count (some a) := by
        simp [List.count_cons]
      rw [hc]
      exact hall a
    | some c =>
      have hc_open : (σ c).closed = false := hopen c (List.mem_cons_self _ _)
      have hother : ∀ a, a ≠ c → (some c :: rest).count (some a) = rest.count (some a) := by
        intro a hac
        have : ¬ c = a := fun h => hac h.symm
        simp [List.count_cons, this]
      have hsame : (some c :: rest).count (some c) = rest.count (some c) + 1 := by
        simp [List.count_cons]
      have step : ∀ τ : Chans, asyncNotifyCh σ (some c) = .ok τ →
          (∀ a, a ≠ c → τ a = σ a) → (τ c).closed = (σ c).closed →
          ∃ σ', asyncNotify σ (some c :: rest) = .ok σ'
            ∧ ∀ a, (σ' a).cap = (τ a).cap ∧ (σ' a).closed = (τ a).closed
              ∧ (σ' a).recvq = (τ a).recvq - rest.count (some a)
              ∧ (σ' a).len = if (τ a).len + (rest.count (some a) - (τ a).recvq) ≤ (τ a).cap
                  then (τ a).len + (rest.count (some a) - (τ a).recvq) else (τ a).cap := by
        intro τ hτ hframe hclosed
        obtain ⟨σ', hσ', hall⟩ := ih τ (by
          intro a ha
          by_cases hac : a = c
          · rw [hac, hclosed]; exact hc_open
          · rw [hframe a hac]; exact hrest a ha)
        exact ⟨σ', by simp [asyncNotify, hτ, hσ'], hall⟩
      by_cases hrecv : 0 < (σ c).recvq
      · obtain ⟨σ', hσ', hall⟩ := step _ (asyncNotifyCh_handoff σ c hc_open hrecv)
          (fun a hac => Function.update_noteq hac _ _) (by simp)
        refine ⟨σ', hσ', fun a => ?_⟩
        obtain ⟨h₁, h₂, h₃, h₄⟩ := hall a
        by_cases hac : a = c
        · subst hac
          simp only [Function.update_same] at h₁ h₂ h₃ h₄
          rw [hsame]
          refine ⟨h₁, h₂, by omega, ?_⟩
          rw [h₄]
          have e : rest.count (some a) - ((σ a).recvq - 1)
              = rest.count (some a) + 1 - (σ a).recvq := by omega
          rw [e]
        · simp only [Function.update_noteq hac] at h₁ h₂ h₃ h₄
          rw [hother a hac]
          exact ⟨h₁, h₂, h₃, h₄⟩
      · have hrecv0 : (σ c).recvq = 0 := by omega
        by_cases hroom : (σ c).len < (σ c).cap
        · obtain ⟨σ', hσ', hall⟩ := step _ (asyncNotifyCh_room σ c hc_open hrecv0 hroom)
            (fun a hac => Function.update_noteq hac _ _) (by simp)
          refine ⟨σ', hσ', fun a => ?_⟩
          obtain ⟨h₁, h₂, h₃, h₄⟩ := hall a
          by_cases hac : a = c
          · subst hac
            simp only [Function.update_same] at h₁ h₂ h₃ h₄
            rw [hsame]
            refine ⟨h₁, h₂, by omega, ?_⟩
            rw [h₄]
            split_ifs <;> omega
          · simp only [Function.update_noteq hac] at h₁ h₂ h₃ h₄
            rw [hother a hac]
            exact ⟨h₁, h₂, h₃, h₄⟩
        · obtain ⟨σ', hσ', hall⟩ := step σ (asyncNotifyCh_full σ c hc_open hrecv0 hroom)
            (fun _ _ => rfl) rfl
          refine ⟨σ', hσ', fun a => ?_⟩
          obtain ⟨h₁, h₂, h₃, h₄⟩ := hall a
          by_cases hac : a = c
          · subst hac
            have hle := (σ a).len_le
            rw [hsame]
            refine ⟨h₁, h₂, by omega, ?_⟩
            rw [h₄]
            split_ifs <;> omega
          · rw [hother a hac]
            exact ⟨h₁, h₂, h₃, h₄⟩

/-- The loop of `asyncNotify` is the monadic fold of `asyncNotifyCh`. -/
theorem asyncNotify_eq_foldlM (chans : List (Option Nat)) (σ : Chans) :
    asyncNotify σ chans = chans.foldlM asyncNotifyCh σ := by
  induction chans generalizing σ with
  | nil => rfl
  | cons ch rest ih =>
    rw [List.foldlM_cons, asyncNotify]
    cases h : asyncNotifyCh σ ch with
    | error e => rfl
    | ok σ' => exact ih σ'

/-! ## Notifier: the stated properties -/

/-- Claim C13, as amended: for every listener that is an open channel of
capacity at most one, and every number `n >= 1` of sends made to it by
`asyncNotify`, the sends complete and at most one signal is pending on the
listener afterwards; with no consumption in between, that is with no receiver
blocked on the channel, the store is the one a single `asyncNotifyCh` leaves.
The sends to a nil listener leave the store as it was. -/
theorem asyncNotify_coalesces (σ : Chans) (a n : Nat) (hn : 1 ≤ n)
    (hopen : (σ a).closed = false) (hcap : (σ a).cap ≤ 1) :
    ∃ σ', asyncNotify σ (List.replicate n (some a)) = .ok σ'
      ∧ (σ' a).len ≤ 1
      ∧ ((σ a).recvq = 0 → asyncNotifyCh σ (some a) = .ok σ')
      ∧ asyncNotify σ (List.replicate n none) = .ok σ := by
  have hnil : asyncNotify σ (List.replicate n none) = .ok σ := by
    clear hn
    induction n with
    | zero => rfl
    | succ k ih => simpa [List.replicate_succ, asyncNotify, asyncNotifyCh] using ih
  obtain ⟨σ', hσ', hall⟩ := asyncNotify_count (List.replicate n (some a)) σ
    (fun b hb => by
      have hb' : some b = some a := List.eq_of_mem_replicate hb
      have hba : b = a := Option.some.inj hb'
      rw [hba]
      exact hopen)
  have hle := (σ a).len_le
  have hcount : (List.replicate n (some a)).count (some a) = n := List.count_replicate_self _ _
  have hzero : ∀ b, b ≠ a → (List.replicate n (some a)).count (some b) = 0 := fun b hba =>
    List.count_eq_zero_of_not_mem
      (fun hm => hba (Option.some.inj (List.eq_of_mem_replicate hm)))
  have hfar : ∀ b, b ≠ a → σ' b = σ b := by
    intro b hba
    obtain ⟨h₁, h₂, h₃, h₄⟩ := hall b
    rw [hzero b hba] at h₃ h₄
    have hlb := (σ b).len_le
    apply Chan.eq_of_fields _ _ h₁ _ (by omega) h₂
    rw [h₄]
    simp [hlb]
  have ha := hall a
  rw [hcount] at ha
  obtain ⟨h₁, h₂, h₃, h₄⟩ := ha
  refine ⟨σ', hσ', ?_, ?_, hnil⟩
  · rw [h₄]
    split_ifs <;> omega
  · intro hidle
    by_cases hroom : (σ a).len < (σ a).cap
    · rw [asyncNotifyCh_room σ a hopen hidle hroom]
      congr 1
      funext b
      by_cases hba : b = a
      · subst hba
        rw [Function.update_same]
        apply Chan.eq_of_fields
        · exact h₁.symm
        · rw [h₄]
          simp only
          split_ifs <;> omega
        · rw [h₃]
          simp only
          omega
        · exact h₂.symm
      · rw [Function.update_noteq hba]
        exact (hfar b hba).symm
    · rw [asyncNotifyCh_full σ a hopen hidle hroom]
      congr 1
      funext b
      by_cases hba : b = a
      · subst hba
        apply Chan.eq_of_fields
        · exact h₁.symm
        · rw [h₄]
          split_ifs <;> omega
        · rw [h₃]
          omega
        · exact h₂.symm
      · exact (hfar b hba).symm

/-- Witness of claim C13: three sends to an open, empty channel of capacity
one on which no receiver is blocked. -/
theorem asyncNotify_coalesces_witness :
    1 ≤ 3 ∧ (emptyChans 1 0).closed = false ∧ (emptyChans 1 0).cap ≤ 1
      ∧ ∃ σ', asyncNotify (emptyChans 1) (List.replicate 3 (some 0)) = .ok σ'
          ∧ (σ' 0).len ≤ 1
          ∧ asyncNotifyCh (emptyChans 1) (some 0) = .ok σ'
          ∧ asyncNotify (emptyChans 1) (List.replicate 3 none) = .ok (emptyChans 1) := by
  obtain ⟨σ', h₁, h₂, h₃, h₄⟩ :=
    asyncNotify_coalesces (emptyChans 1) 0 3 (by decide) rfl (by decide)
  exact ⟨by decide, rfl, by decide, σ', h₁, h₂, h₃ rfl, h₄⟩

/-- Counterexample to claim C13 as stated: two sends to an open, empty channel
of capacity two leave two signals pending, where a single send leaves one; and a
send to a closed channel panics. -/
theorem asyncNotify_coalesces_capacity_two :
    (∃ σ', asyncNotify (emptyChans 2) (List.replicate 2 (some 0)) = .ok σ'
        ∧ (σ' 0).len = 2 ∧ ¬ (σ' 0).len ≤ 1)
      ∧ (∃ σ₁, asyncNotifyCh (emptyChans 2) (some 0) = .ok σ₁ ∧ (σ₁ 0).len = 1)
      ∧ asyncNotify closedChans (List.replicate 2 (some 0))
          = .error "send on closed channel" :=
  ⟨⟨_, rfl, rfl, by decide⟩, ⟨_, rfl, rfl⟩, rfl⟩

/-- Claim C14, as amended: for every list of listeners none of which is a closed
channel, `asyncNotify` completes without a fault, and its effect is
`asyncNotifyCh` applied to each listener in order. A send to a listener that
cannot accept a signal, being nil or full with no receiver blocked on it, leaves
every channel as it was. A send to a listener that can accept one gives it
exactly one signal and leaves the other channels as they were: the signal is
handed to a receiver blocked on the channel when there is one, and is otherwise
added to the buffer as one pending signal. Hence a channel that is not listed,
or is full with no receiver blocked, is left as it was, and a channel that is
listed once gains exactly one signal when it can accept one. -/
theorem asyncNotify_effect (σ : Chans) (chans : List (Option Nat))
    (hopen : ∀ a, some a ∈ chans → (σ a).closed = false) :
    ∃ σ', asyncNotify σ chans = .ok σ'
      ∧ asyncNotify σ chans = chans.foldlM asyncNotifyCh σ
      ∧ (∀ τ : Chans, asyncNotifyCh τ none = .ok τ)
      ∧ (∀ (τ : Chans) (a : Nat), (τ a).closed = false → (τ a).recvq = 0 →
            (τ a).len = (τ a).cap → asyncNotifyCh τ (some a) = .ok τ)
      ∧ (∀ (τ : Chans) (a : Nat), (τ a).closed = false → (τ a).recvq = 0 →
            (τ a).len < (τ a).cap →
            ∃ τ', asyncNotifyCh τ (some a) = .ok τ'
              ∧ (τ' a).len = (τ a).len + 1 ∧ (τ' a).recvq = (τ a).recvq
              ∧ (τ' a).cap = (τ a).cap ∧ (τ' a).closed = (τ a).closed
              ∧ ∀ b, b ≠ a → τ' b = τ b)
      ∧ (∀ (τ : Chans) (a : Nat), (τ a).closed = false → 0 < (τ a).recvq →
            ∃ τ', asyncNotifyCh τ (some a) = .ok τ'
              ∧ (τ' a).recvq + 1 = (τ a).recvq ∧ (τ' a).len = (τ a).len
              ∧ (τ' a).cap = (τ a).cap ∧ (τ' a).closed = (τ a).closed
              ∧ ∀ b, b ≠ a → τ' b = τ b)
      ∧ (∀ a, some a ∉ chans → σ' a = σ a)
      ∧ (∀ a, (σ a).recvq = 0 → (σ a).len = (σ a).cap → σ' a = σ a)
      ∧ (∀ a, chans.count (some a) = 1 → (σ a).recvq = 0 → (σ a).len < (σ a).cap →
            (σ' a).len = (σ a).len + 1 ∧ (σ' a).recvq = (σ a).recvq
              ∧ (σ' a).cap = (σ a).cap ∧ (σ' a).closed = (σ a).closed)
      ∧ (∀ a, chans.count (some a) = 1 → 0 < (σ a).recvq →
            (σ' a).recvq + 1 = (σ a).recvq ∧ (σ' a).len = (σ a).len
              ∧ (σ' a).cap = (σ a).cap ∧ (σ' a).closed = (σ a).closed) := by
  obtain ⟨σ', hσ', hall⟩ := asyncNotify_count chans σ hopen
  refine ⟨σ', hσ', asyncNotify_eq_foldlM chans σ, fun τ => rfl, ?_, ?_, ?_, ?_, ?_, ?_, ?_⟩
  · intro τ a ho hidle hfull
    exact asyncNotifyCh_full τ a ho hidle (by omega)
  · intro τ a ho hidle hroom
    refine ⟨_, asyncNotifyCh_room τ a ho hidle hroom, ?_, ?_, ?_, ?_, ?_⟩
    · simp
    · simp
    · simp
    · simp
    · intro b hb
      exact Function.update_noteq hb _ _
  · intro τ a ho hrecv
    refine ⟨_, asyncNotifyCh_handoff τ a ho hrecv, ?_, ?_, ?_, ?_, ?_⟩
    · simp only [Function.update_same]
      omega
    · simp
    · simp
    · simp
    · intro b hb
      exact Function.update_noteq hb _ _
  · intro a ha
    obtain ⟨h₁, h₂, h₃, h₄⟩ := hall a
    have hle := (σ a).len_le
    rw [List.count_eq_zero_of_not_mem ha] at h₃ h₄
    apply Chan.eq_of_fields _ _ h₁ _ (by omega) h₂
    rw [h₄]
    simp [hle]
  · intro a hidle hfull
    obtain ⟨h₁, h₂, h₃, h₄⟩ := hall a
    apply Chan.eq_of_fields _ _ h₁ _ (by omega) h₂
    rw [h₄]
    split_ifs <;> omega
  · intro a hone hidle hroom
    obtain ⟨h₁, h₂, h₃, h₄⟩ := hall a
    rw [hone] at h₃ h₄
    refine ⟨?_, by omega, h₁, h₂⟩
    rw [h₄]
    split_ifs <;> omega
  · intro a hone hrecv
    obtain ⟨h₁, h₂, h₃, h₄⟩ := hall a
    have hle := (σ a).len_le
    rw [hone] at h₃ h₄
    refine ⟨by omega, ?_, h₁, h₂⟩
    rw [h₄]
    split_ifs <;> omega

/-- Witness of claim C14: a nil listener and two open, empty channels of
capacity one. -/
theorem asyncNotify_effect_witness :
    (∀ a, some a ∈ [none, some 0, some 1] → (emptyChans 1 a).closed = false)
      ∧ ∃ σ', asyncNotify (emptyChans 1) [none, some 0, some 1] = .ok σ'
          ∧ (σ' 0).len = 1 ∧ (σ' 1).len = 1 ∧ σ' 2 = emptyChans 1 2 := by
  obtain ⟨σ', h₁, -, -, -, -, -, hframe, -, hone, -⟩ :=
    asyncNotify_effect (emptyChans 1) [none, some 0, some 1] (fun _ _ => rfl)
  exact ⟨fun _ _ => rfl, σ', h₁, (hone 0 (by decide) rfl (by decide)).1,
    (hone 1 (by decide) rfl (by decide)).1, hframe 2 (by decide)⟩

/-- Counterexample to claim C14 as stated: on a list that holds a closed channel,
`asyncNotify` does not complete: the send panics. And on an unbuffered channel
with a blocked receiver the send is accepted and handed to the receiver, and no
signal becomes pending. -/
theorem asyncNotify_closed_panics :
    asyncNotify closedChans [some 0] = .error "send on closed channel"
      ∧ (¬ ∃ σ', asyncNotify closedChans [some 0] = .ok σ')
      ∧ ∃ σ', asyncNotify waitingChans [some 0] = .ok σ'
          ∧ (waitingChans 0).recvq = 1 ∧ (σ' 0).recvq = 0
          ∧ (waitingChans 0).len = 0 ∧ (σ' 0).len = 0 :=
  ⟨rfl, (fun ⟨_, h⟩ => by cases h), ⟨_, rfl, rfl, rfl, rfl, rfl⟩⟩

/-! ## Identifiers: lemmas -/

/-- A list of sixteen bytes is its sixteen bytes. -/
theorem eq_of_length_sixteen (buf : List Byte) (h : buf.length = 16) :
    ∃ b0 b1 b2 b3 b4 b5 b6 b7 b8 b9 b10 b11 b12 b13 b14 b15,
      buf = [b0, b1, b2, b3, b4, b5, b6, b7, b8, b9, b10, b11, b12, b13, b14, b15] := by
  match buf, h with
  | [b0, b1, b2, b3, b4, b5, b6, b7, b8, b9, b10, b11, b12, b13, b14, b15], _ =>
    exact ⟨b0, b1, b2, b3, b4, b5, b6, b7, b8, b9, b10, b11, b12, b13, b14, b15, rfl⟩

/-- The text `formatUUID` builds from sixteen bytes: no padding is written. -/
theorem formatUUID_sixteen (b0 b1 b2 b3 b4 b5 b6 b7 b8 b9 b10 b11 b12 b13 b14 b15 : Byte) :
    (formatUUID [b0, b1, b2, b3, b4, b5, b6, b7, b8, b9, b10, b11, b12, b13, b14, b15]).data
      = [hexChar (b0.val >>> 4), hexChar (b0.val &&& 0xF),
         hexChar (b1.val >>> 4), hexChar (b1.val &&& 0xF),
         hexChar (b2.val >>> 4), hexChar (b2.val &&& 0xF),
         hexChar (b3.val >>> 4), hexChar (b3.val &&& 0xF), '-',
         hexChar (b4.val >>> 4), hexChar (b4.val &&& 0xF),
         hexChar (b5.val >>> 4), hexChar (b5.val &&& 0xF), '-',
         hexChar (b6.val >>> 4), hexChar (b6.val &&& 0xF),
         hexChar (b7.val >>> 4), hexChar (b7.val &&& 0xF), '-',
         hexChar (b8.val >>> 4), hexChar (b8.val &&& 0xF),
         hexChar (b9.val >>> 4), hexChar (b9.val &&& 0xF), '-',
         hexChar (b10.val >>> 4), hexChar (b10.val &&& 0xF),
         hexChar (b11.val >>> 4), hexChar (b11.val &&& 0xF),
         hexChar (b12.val >>> 4), hexChar (b12.val &&& 0xF),
         hexChar (b13.val >>> 4), hexChar (b13.val &&& 0xF),
         hexChar (b14.val >>> 4), hexChar (b14.val &&& 0xF),
         hexChar (b15.val >>> 4), hexChar (b15.val &&& 0xF)] := by
  simp [formatUUID, fmtPad, fmtSbx, slice]

/-- Every digit of `ldigits` is a hexadecimal digit. -/
theorem hexChar_mem (n : Nat) (h : n < 16) : hexChar n ∈ ldigits := by
  interval_cases n <;> decide

/-- Distinct indices give distinct digits. -/
theorem hexChar_inj (m n : Nat) (hm : m < 16) (hn : n < 16) (h : hexChar m = hexChar n) :
    m = n := by
  interval_cases m <;> interval_cases n <;> first | rfl | (exfalso; revert h; decide)

/-- The high digit index of a byte. -/
theorem byte_shiftRight_lt (c : Byte) : c.val >>> 4 < 16 := by
  have := c.isLt
  rw [Nat.shiftRight_eq_div_pow]
  omega

/-- The low digit index of a byte. -/
theorem byte_and_lt (c : Byte) : c.val &&& 0xF < 16 := by
  have h : c.val &&& 0xF = c.val % 2 ^ 4 := Nat.and_pow_two_sub_one_eq_mod c.val 4
  rw [h]
  omega

/-- A byte is determined by its two digits. -/
theorem byte_eq_of_digits (c d : Byte)
    (hhi : hexChar (c.val >>> 4) = hexChar (d.val >>> 4))
    (hlo : hexChar (c.val &&& 0xF) = hexChar (d.val &&& 0xF)) : c = d := by
  have h₁ := hexChar_inj _ _ (byte_shiftRight_lt c) (byte_shiftRight_lt d) hhi
  have h₂ := hexChar_inj _ _ (byte_and_lt c) (byte_and_lt d) hlo
  have e₁ : c.val &&& 0xF = c.val % 2 ^ 4 := Nat.and_pow_two_sub_one_eq_mod c.val 4
  have e₂ : d.val &&& 0xF = d.val % 2 ^ 4 := Nat.and_pow_two_sub_one_eq_mod d.val 4
  rw [Nat.shiftRight_eq_div_pow, Nat.shiftRight_eq_div_pow] at h₁
  rw [e₁, e₂] at h₂
  apply Fin.ext
  omega

/-! ## Identifiers: the stated properties -/

/-- Claim C15: for every sixteen bytes read from the random source,
`generateUUID` returns a string of exactly 36 characters, with hyphens at
positions 8, 13, 18 and 23 and a hexadecimal digit at every other position, the
five groups being the hexadecimal text of bytes 0 to 3, 4 to 5, 6 to 7, 8 to 9
and 10 to 15 in order, with no padding. -/
theorem generateUUID_format (buf : List Byte) (h : buf.length = 16) :
    ∃ s, generateUUID (.ok buf) = .ok s
      ∧ s.length = 36
      ∧ (∀ i, i ∈ [8, 13, 18, 23] → s.data[i]? = some '-')
      ∧ (∀ i, i < 36 → i ∉ [8, 13, 18, 23] → ∃ c, s.data[i]? = some c ∧ c ∈ ldigits)
      ∧ s.data = fmtSbx (slice buf 0 4) ++ '-' :: fmtSbx (slice buf 4 6) ++ '-' ::
          fmtSbx (slice buf 6 8) ++ '-' :: fmtSbx (slice buf 8 10) ++ '-' ::
          fmtSbx (slice buf 10 16) := by
  obtain ⟨b0, b1, b2, b3, b4, b5, b6, b7, b8, b9, b10, b11, b12, b13, b14, b15, rfl⟩ :=
    eq_of_length_sixteen buf h
  refine ⟨_, rfl, ?_, ?_, ?_, ?_⟩
  · rw [String.length, formatUUID_sixteen]
    rfl
  · intro i hi
    rw [formatUUID_sixteen]
    simp only [List.mem_cons, List.mem_singleton, List.not_mem_nil, or_false] at hi
    rcases hi with rfl | rfl | rfl | rfl <;> rfl
  · intro i hi hnot
    rw [formatUUID_sixteen]
    simp only [List.mem_cons, List.mem_singleton, List.not_mem_nil, or_false, not_or] at hnot
    obtain ⟨n₁, n₂, n₃, n₄⟩ := hnot
    interval_cases i <;>
      first
      | exact absurd rfl n₁
      | exact absurd rfl n₂
      | exact absurd rfl n₃
      | exact absurd rfl n₄
      | exact ⟨_, rfl, hexChar_mem _ (byte_shiftRight_lt _)⟩
      | exact ⟨_, rfl, hexChar_mem _ (byte_and_lt _)⟩
  · rw [formatUUID_sixteen]
    simp [fmtSbx, slice]

/-- Witness of claim C15 at the bytes `0, 1, ..., 14, 255`. -/
theorem generateUUID_format_witness :
    ([0, 1, 2, 3, 4, 5, 6, 7, 8, 9, 10, 11, 12, 13, 14, 255] : List Byte).length = 16
      ∧ generateUUID (.ok [0, 1, 2, 3, 4, 5, 6, 7, 8, 9, 10, 11, 12, 13, 14, 255])
          = .ok "00010203-0405-0607-0809-0a0b0c0d0eff"
      ∧ ∃ s, generateUUID (.ok [0, 1, 2, 3, 4, 5, 6, 7, 8, 9, 10, 11, 12, 13, 14, 255]) = .ok s
          ∧ s.length = 36 := by
  obtain ⟨s, h₁, h₂, -⟩ :=
    generateUUID_format [0, 1, 2, 3, 4, 5, 6, 7, 8, 9, 10, 11, 12, 13, 14, 255] rfl
  have hf : formatUUID [0, 1, 2, 3, 4, 5, 6, 7, 8, 9, 10, 11, 12, 13, 14, 255]
      = "00010203-0405-0607-0809-0a0b0c0d0eff" := by decide
  exact ⟨rfl, congrArg Except.ok hf, s, h₁, h₂⟩

/-- Claim C19: the formatting loses nothing: two different values of sixteen
bytes give different strings. -/
theorem generateUUID_injective (b₁ b₂ : List Byte) (h₁ : b₁.length = 16)
    (h₂ : b₂.length = 16) (hne : b₁ ≠ b₂) :
    generateUUID (.ok b₁) ≠ generateUUID (.ok b₂) := by
  obtain ⟨a0, a1, a2, a3, a4, a5, a6, a7, a8, a9, a10, a11, a12, a13, a14, a15, rfl⟩ :=
    eq_of_length_sixteen b₁ h₁
  obtain ⟨c0, c1, c2, c3, c4, c5, c6, c7, c8, c9, c10, c11, c12, c13, c14, c15, rfl⟩ :=
    eq_of_length_sixteen b₂ h₂
  intro heq
  apply hne
  have hs : formatUUID [a0, a1, a2, a3, a4, a5, a6, a7, a8, a9, a10, a11, a12, a13, a14, a15]
      = formatUUID [c0, c1, c2, c3, c4, c5, c6, c7, c8, c9, c10, c11, c12, c13, c14, c15] :=
    Except.ok.inj heq
  have hd := congrArg String.data hs
  rw [formatUUID_sixteen, formatUUID_sixteen] at hd
  simp only [List.cons.injEq, and_true, true_and] at hd
  obtain ⟨x0, y0, x1, y1, x2, y2, x3, y3, x4, y4, x5, y5, x6, y6, x7, y7, x8, y8, x9, y9,
    x10, y10, x11, y11, x12, y12, x13, y13, x14, y14, x15, y15⟩ := hd
  rw [byte_eq_of_digits a0 c0 x0 y0, byte_eq_of_digits a1 c1 x1 y1,
    byte_eq_of_digits a2 c2 x2 y2, byte_eq_of_digits a3 c3 x3 y3,
    byte_eq_of_digits a4 c4 x4 y4, byte_eq_of_digits a5 c5 x5 y5,
    byte_eq_of_digits a6 c6 x6 y6, byte_eq_of_digits a7 c7 x7 y7,
    byte_eq_of_digits a8 c8 x8 y8, byte_eq_of_digits a9 c9 x9 y9,
    byte_eq_of_digits a10 c10 x10 y10, byte_eq_of_digits a11 c11 x11 y11,
    byte_eq_of_digits a12 c12 x12 y12, byte_eq_of_digits a13 c13 x13 y13,
    byte_eq_of_digits a14 c14 x14 y14, byte_eq_of_digits a15 c15 x15 y15]

/-- Witness of claim C19 at two values that differ in the last byte. -/
theorem generateUUID_injective_witness :
    ([0, 0, 0, 0, 0, 0, 0, 0, 0, 0, 0, 0, 0, 0, 0, 1] : List Byte).length = 16
      ∧ ([0, 0, 0, 0, 0, 0, 0, 0, 0, 0, 0, 0, 0, 0, 0, 2] : List Byte).length = 16
      ∧ ([0, 0, 0, 0, 0, 0, 0, 0, 0, 0, 0, 0, 0, 0, 0, 1] : List Byte)
          ≠ [0, 0, 0, 0, 0, 0, 0, 0, 0, 0, 0, 0, 0, 0, 0, 2]
      ∧ generateUUID (.ok [0, 0, 0, 0, 0, 0, 0, 0, 0, 0, 0, 0, 0, 0, 0, 1])
          ≠ generateUUID (.ok [0, 0, 0, 0, 0, 0, 0, 0, 0, 0, 0, 0, 0, 0, 0, 2]) :=
  ⟨rfl, rfl, by decide,
   generateUUID_injective [0, 0, 0, 0, 0, 0, 0, 0, 0, 0, 0, 0, 0, 0, 0, 1]
     [0, 0, 0, 0, 0, 0, 0, 0, 0, 0, 0, 0, 0, 0, 0, 2] rfl rfl (by decide)⟩

/-! ## Configuration codec: malformed and truncated input -/

/-- The encoder never writes the buffer `[0x91, 0xa1, 0x41, 0xff]`. -/
theorem encodeSlice_ne_trailing (l : List (List Byte)) :
    encodeSlice l ≠ [0x91, 0xa1, 0x41, 0xff] := by
  intro h
  cases l with
  | nil => simp [encodeSlice] at h
  | cons x xs =>
    have hlen := congrArg List.length h
    simp only [encodeSlice, writeContainerLen] at h hlen
    split_ifs at h hlen with h1 h2
    · obtain ⟨-, -, hv⟩ := fixarray_header _ h1
      simp only [List.singleton_append, List.cons.injEq] at h
      have hv' : (0x91 : Byte).val &&& 0x0f = (x :: xs).length := by rw [← h.1]; exact hv
      have hone : (x :: xs).length = 1 := by rw [← hv']; rfl
      have hxs : xs = [] := by
        apply List.eq_nil_of_length_eq_zero
        simpa using hone
      subst hxs
      have hbody := h.2
      simp only [List.map_cons, List.map_nil, List.flatten_cons, List.flatten_nil,
        List.append_nil, encodeStringBytes, writeContainerLen] at hbody
      have hblen := congrArg List.length hbody
      split_ifs at hbody hblen with g1 g2
      · obtain ⟨-, -, gv⟩ := fixraw_header _ g1
        simp only [List.singleton_append, List.cons.injEq] at hbody
        have gv' : (0xa1 : Byte).val &&& 0x1f = x.length := by rw [← hbody.1]; exact gv
        have gone : x.length = 1 := by rw [← gv']; rfl
        have := congrArg List.length hbody.2
        simp [gone] at this
      · simp only [List.cons_append, List.cons.injEq] at hbody
        exact absurd hbody.1 (by decide)
      · simp only [List.cons_append, List.cons.injEq] at hbody
        exact absurd hbody.1 (by decide)
    · simp only [List.cons_append, List.cons.injEq] at h
      exact absurd h.1 (by decide)
    · simp only [List.cons_append, List.cons.injEq] at h
      exact absurd h.1 (by decide)

/-- What a successful read returns. -/
theorem readn_eq_ok (n : Nat) (r x rest : List Byte) (h : readn n r = .ok (x, rest)) :
    r = x ++ rest ∧ x.length = n := by
  unfold readn at h
  by_cases hlt : r.length < n
  · simp [hlt] at h
  · simp only [hlt, if_false, Except.ok.injEq, Prod.mk.injEq] at h
    obtain ⟨rfl, rfl⟩ := h
    exact ⟨(List.take_append_drop n r).symm, List.length_take_of_le (by omega)⟩

/-- What a successful sized read returns. -/
theorem readSized_eq_ok (w : Nat) (r bs rest : List Byte)
    (h : readSized w r = .ok (bs, rest)) :
    ∃ len, r = len ++ (bs ++ rest) ∧ len.length = w ∧ bs.length = bigEndianValue len := by
  unfold readSized at h
  cases h₁ : readn w r with
  | error e => simp [h₁] at h
  | ok v =>
    obtain ⟨len, rest₁⟩ := v
    rw [h₁] at h
    obtain ⟨e₁, l₁⟩ := readn_eq_ok w r len rest₁ h₁
    obtain ⟨e₂, l₂⟩ := readn_eq_ok _ rest₁ bs rest h
    exact ⟨len, by rw [e₁, e₂], l₁, l₂⟩

/-- A sized read of a length field and as many bytes. -/
theorem readSized_append (len bs rest : List Byte) (hl : bs.length = bigEndianValue len) :
    readSized len.length (len ++ (bs ++ rest)) = .ok (bs, rest) := by
  unfold readSized
  rw [readn_append len (bs ++ rest)]
  simp only
  rw [← hl]
  exact readn_append bs rest

/-- A container length that is read comes from a header. -/
theorem readContainerLen_sound (fixMin b16 b32 : Nat) (bd : Byte) (rest rest' : List Byte)
    (n : Nat) (h : readContainerLen fixMin b16 b32 bd rest = .ok (n, rest')) :
    ∃ len, rest = len ++ rest' ∧ EncodesLen fixMin b16 b32 (bd :: len) n := by
  unfold readContainerLen at h
  split_ifs at h with c₁ c₂ c₃
  · simp only [Except.ok.injEq, Prod.mk.injEq] at h
    obtain ⟨rfl, rfl⟩ := h
    exact ⟨[], rfl, EncodesLen.fix bd c₁⟩
  · cases h₁ : readn 2 rest with
    | error e => simp [h₁] at h
    | ok v =>
      obtain ⟨len, rest₁⟩ := v
      rw [h₁] at h
      simp only [Except.ok.injEq, Prod.mk.injEq] at h
      obtain ⟨rfl, rfl⟩ := h
      obtain ⟨e₁, l₁⟩ := readn_eq_ok 2 rest len rest₁ h₁
      exact ⟨len, e₁, EncodesLen.len16 bd len c₂ l₁⟩
  · cases h₁ : readn 4 rest with
    | error e => simp [h₁] at h
    | ok v =>
      obtain ⟨len, rest₁⟩ := v
      rw [h₁] at h
      simp only [Except.ok.injEq, Prod.mk.injEq] at h
      obtain ⟨rfl, rfl⟩ := h
      obtain ⟨e₁, l₁⟩ := readn_eq_ok 4 rest len rest₁ h₁
      exact ⟨len, e₁, EncodesLen.len32 bd len c₃ l₁⟩

/-- The length of a header is read, whatever follows the header. -/
theorem readContainerLen_complete (fixMin b16 b32 : Nat)
    (h16 : ¬ (fixMin ≤ b16 ∧ b16 ≤ fixMin + 15)) (h32 : ¬ (fixMin ≤ b32 ∧ b32 ≤ fixMin + 15))
    (hne : b32 ≠ b16) (hdr : List Byte) (n : Nat) (h : EncodesLen fixMin b16 b32 hdr n) :
    ∃ bd len, hdr = bd :: len ∧ (fixMin ≤ bd.val ∧ bd.val ≤ fixMin + 15 ∨ bd.val = b16
        ∨ bd.val = b32)
      ∧ ∀ rest, readContainerLen fixMin b16 b32 bd (len ++ rest) = .ok (n, rest) := by
  cases h with
  | fix bd hfix =>
    exact ⟨bd, [], rfl, Or.inl hfix, fun rest => readContainerLen_fix _ _ _ bd _ hfix⟩
  | len16 bd len hbd hl =>
    exact ⟨bd, len, rfl, Or.inr (Or.inl hbd), fun rest =>
      readContainerLen_len16 _ _ _ bd len rest (by rw [hbd]; exact h16) hbd hl⟩
  | len32 bd len hbd hl =>
    exact ⟨bd, len, rfl, Or.inr (Or.inr hbd), fun rest =>
      readContainerLen_len32 _ _ _ bd len rest (by rw [hbd]; exact h32)
        (by rw [hbd]; exact hne) hbd hl⟩

/-- The descriptors of the sized integers. -/
theorem intDescriptor_some (v w : Nat) (signed : Bool)
    (h : intDescriptor v = some (w, signed)) : 0xcc ≤ v ∧ v ≤ 0xd3 := by
  unfold intDescriptor at h
  split_ifs at h <;> omega

/-- An integer that is decoded was completely encoded. -/
theorem decodeUint8_sound (r rest : List Byte) (b : Byte)
    (h : decodeUint8 r = .ok (b, rest)) : ∃ v, r = v ++ rest ∧ EncodesUint v b := by
  cases r with
  | nil => simp [decodeUint8] at h
  | cons bd tl =>
    simp only [decodeUint8] at h
    split_ifs at h with c₁ c₂
    · simp only [Except.ok.injEq, Prod.mk.injEq] at h
      obtain ⟨rfl, rfl⟩ := h
      have hbd : bd = 0xc0 := Fin.ext c₁
      subst hbd
      exact ⟨[0xc0], rfl, EncodesUint.nil⟩
    · simp only [Except.ok.injEq, Prod.mk.injEq] at h
      obtain ⟨rfl, rfl⟩ := h
      exact ⟨[bd], rfl, EncodesUint.fixnum bd c₂⟩
    · cases hd : intDescriptor bd.val with
      | none => simp [hd] at h
      | some ws =>
        obtain ⟨w, signed⟩ := ws
        rw [hd] at h
        simp only at h
        cases h₁ : readn w tl with
        | error e => simp [h₁] at h
        | ok v =>
          obtain ⟨bs, rest₁⟩ := v
          rw [h₁] at h
          simp only at h
          obtain ⟨e₁, l₁⟩ := readn_eq_ok w tl bs rest₁ h₁
          split_ifs at h with d₁ d₂
          simp only [Except.ok.injEq, Prod.mk.injEq] at h
          obtain ⟨rfl, rfl⟩ := h
          refine ⟨bd :: bs, by rw [e₁]; rfl, EncodesUint.sized bd w signed bs hd l₁ ?_ (by omega)⟩
          intro hsig
          by_contra hneg
          exact d₁ ⟨hsig, by omega⟩

/-- A complete encoding of an integer is decoded, whatever follows it. -/
theorem decodeUint8_complete (v : List Byte) (b : Byte) (h : EncodesUint v b)
    (rest : List Byte) : decodeUint8 (v ++ rest) = .ok (b, rest) := by
  cases h with
  | nil => rfl
  | fixnum _ hfix =>
    have hnil : b.val ≠ 0xc0 := by omega
    simp only [List.singleton_append, decodeUint8, hnil, if_false, hfix, if_true]
  | sized bd w signed bs hd hw hneg hov =>
    obtain ⟨hlo, hhi⟩ := intDescriptor_some _ _ _ hd
    have hnil : bd.val ≠ 0xc0 := by omega
    have hfix : ¬ bd.val ≤ 0x7f := by omega
    have hr : readn w (bs ++ rest) = .ok (bs, rest) := by
      rw [← hw]; exact readn_append bs rest
    have hn : ¬ (signed = true ∧ 2 ^ (8 * w - 1) ≤ bigEndianValue bs) := by
      rintro ⟨hsig, hbig⟩
      have := hneg hsig
      omega
    have ho : ¬ 255 < bigEndianValue bs := by omega
    simp only [List.cons_append, decodeUint8, hnil, if_false, hfix, hd, hr, hn, ho]

/-- Items that are decoded one after the other were completely encoded one after
the other. -/
theorem seq_sound {β : Type} (one : List Byte → Except String (β × List Byte))
    (many : Nat → List Byte → Except String (List β × List Byte))
    (One : List Byte → β → Prop)
    (h0 : ∀ r, many 0 r = .ok ([], r))
    (hs : ∀ n r, many (n + 1) r = seqStep one (many n) r)
    (hone : ∀ r x rest, one r = .ok (x, rest) → ∃ v, r = v ++ rest ∧ One v x)
    (n : Nat) (r : List Byte) (xs : List β) (rest : List Byte)
    (h : many n r = .ok (xs, rest)) :
    ∃ v, r = v ++ rest ∧ EncodesSeq One v xs ∧ xs.length = n := by
  induction n generalizing r xs rest with
  | zero =>
    rw [h0] at h
    simp only [Except.ok.injEq, Prod.mk.injEq] at h
    obtain ⟨rfl, rfl⟩ := h
    exact ⟨[], rfl, EncodesSeq.nil, rfl⟩
  | succ k ih =>
    rw [hs, seqStep] at h
    cases h₁ : one r with
    | error e => simp [h₁] at h
    | ok p =>
      obtain ⟨x, rest₁⟩ := p
      rw [h₁] at h
      simp only at h
      cases h₂ : many k rest₁ with
      | error e => simp [h₂] at h
      | ok q =>
        obtain ⟨ys, rest₂⟩ := q
        rw [h₂] at h
        simp only [Except.ok.injEq, Prod.mk.injEq] at h
        obtain ⟨rfl, rfl⟩ := h
        obtain ⟨v, e₁, hv⟩ := hone r x rest₁ h₁
        obtain ⟨vs, e₂, hvs, hlen⟩ := ih rest₁ ys rest₂ h₂
        refine ⟨v ++ vs, ?_, EncodesSeq.cons v vs x ys hv hvs, by simp [hlen]⟩
        rw [e₁, e₂, List.append_assoc]

/-- Complete encodings in a row are decoded one after the other, whatever
follows them. -/
theorem seq_complete {β : Type} (one : List Byte → Except String (β × List Byte))
    (many : Nat → List Byte → Except String (List β × List Byte))
    (One : List Byte → β → Prop)
    (h0 : ∀ r, many 0 r = .ok ([], r))
    (hs : ∀ n r, many (n + 1) r = seqStep one (many n) r)
    (hone : ∀ v x, One v x → ∀ rest, one (v ++ rest) = .ok (x, rest))
    (v : List Byte) (xs : List β) (h : EncodesSeq One v xs) (rest : List Byte) :
    many xs.length (v ++ rest) = .ok (xs, rest) := by
  induction h with
  | nil => exact h0 _
  | cons v vs x ys hv _ ih =>
    rw [List.length_cons, hs, seqStep, List.append_assoc, hone v x hv]
    simp only [ih]

/-- The recursion of `decodeUints`. -/
theorem decodeUints_succ (n : Nat) (r : List Byte) :
    decodeUints (n + 1) r = seqStep decodeUint8 (decodeUints n) r := by
  rw [decodeUints, seqStep]
  cases decodeUint8 r with
  | error e => rfl
  | ok p =>
    obtain ⟨x, rest⟩ := p
    dsimp only
    cases decodeUints n rest <;> rfl

/-- The recursion of `decodeElems`. -/
theorem decodeElems_succ (n : Nat) (r : List Byte) :
    decodeElems (n + 1) r = seqStep decodeBytes (decodeElems n) r := by
  rw [decodeElems, seqStep]
  cases decodeBytes r with
  | error e => rfl
  | ok p =>
    obtain ⟨x, rest⟩ := p
    dsimp only
    cases decodeElems n rest <;> rfl

/-- Integers that are decoded one after the other were completely encoded. -/
theorem decodeUints_sound (n : Nat) (r bs rest : List Byte)
    (h : decodeUints n r = .ok (bs, rest)) :
    ∃ v, r = v ++ rest ∧ EncodesSeq EncodesUint v bs ∧ bs.length = n :=
  seq_sound decodeUint8 decodeUints EncodesUint (fun _ => rfl)
    decodeUints_succ
    (fun r x rest hx => decodeUint8_sound r rest x hx) n r bs rest h

/-- Complete encodings of integers in a row are decoded. -/
theorem decodeUints_complete (v bs : List Byte) (h : EncodesSeq EncodesUint v bs)
    (rest : List Byte) : decodeUints bs.length (v ++ rest) = .ok (bs, rest) :=
  seq_complete decodeUint8 decodeUints EncodesUint (fun _ => rfl)
    decodeUints_succ
    decodeUint8_complete v bs h rest

/-- A byte string that is decoded was completely encoded. -/
theorem decodeBytes_sound (r bs rest : List Byte) (h : decodeBytes r = .ok (bs, rest)) :
    ∃ v, r = v ++ rest ∧ EncodesBytes v bs := by
  cases r with
  | nil => simp [decodeBytes] at h
  | cons bd tl =>
    simp only [decodeBytes] at h
    split_ifs at h with c₁ c₂ c₃ c₄ c₅
    · simp only [Except.ok.injEq, Prod.mk.injEq] at h
      obtain ⟨rfl, rfl⟩ := h
      have hbd : bd = 0xc0 := Fin.ext c₁
      subst hbd
      exact ⟨[0xc0], rfl, EncodesBytes.nil⟩
    · obtain ⟨e, hl⟩ := readn_eq_ok _ tl bs rest h
      exact ⟨bd :: bs, by rw [e]; rfl, EncodesBytes.fixstr bd bs c₂ hl⟩
    · obtain ⟨len, e, hw, hl⟩ := readSized_eq_ok 1 tl bs rest h
      exact ⟨bd :: (len ++ bs), by rw [e]; simp,
        EncodesBytes.sized bd 1 len bs (Or.inl ⟨c₃, rfl⟩) hw hl⟩
    · obtain ⟨len, e, hw, hl⟩ := readSized_eq_ok 2 tl bs rest h
      exact ⟨bd :: (len ++ bs), by rw [e]; simp,
        EncodesBytes.sized bd 2 len bs (Or.inr (Or.inl ⟨c₄, rfl⟩)) hw hl⟩
    · obtain ⟨len, e, hw, hl⟩ := readSized_eq_ok 4 tl bs rest h
      exact ⟨bd :: (len ++ bs), by rw [e]; simp,
        EncodesBytes.sized bd 4 len bs (Or.inr (Or.inr ⟨c₅, rfl⟩)) hw hl⟩
    · cases h₁ : readContainerLen 0x90 0xdc 0xdd bd tl with
      | error e => simp [h₁] at h
      | ok p =>
        obtain ⟨n, rest₁⟩ := p
        rw [h₁] at h
        simp only at h
        obtain ⟨len, e₁, hh⟩ := readContainerLen_sound _ _ _ bd tl rest₁ n h₁
        obtain ⟨vs, e₂, hvs, hn⟩ := decodeUints_sound n rest₁ bs rest h
        exact ⟨(bd :: len) ++ vs, by rw [e₁, e₂]; simp,
          EncodesBytes.uints (bd :: len) vs bs n hh hvs hn⟩

/-- A complete encoding of a byte string is decoded, whatever follows it. -/
theorem decodeBytes_complete (v bs : List Byte) (h : EncodesBytes v bs) (rest : List Byte) :
    decodeBytes (v ++ rest) = .ok (bs, rest) := by
  cases h with
  | nil => rfl
  | fixstr bd _ hfix hl =>
    have hnil : bd.val ≠ 0xc0 := by omega
    simp only [List.cons_append, decodeBytes, hnil, if_false, hfix, and_self, if_true]
    rw [← hl]
    exact readn_append bs rest
  | sized bd w len _ hd hw hl =>
    have hassoc : (bd :: (len ++ bs)) ++ rest = bd :: (len ++ (bs ++ rest)) := by simp
    rw [hassoc]
    have hr := readSized_append len bs rest hl
    rw [hw] at hr
    rcases hd with ⟨hbd, rfl⟩ | ⟨hbd, rfl⟩ | ⟨hbd, rfl⟩
    · have hnil : bd.val ≠ 0xc0 := by omega
      have hraw : ¬ (0xa0 ≤ bd.val ∧ bd.val ≤ 0xbf) := by omega
      simp only [decodeBytes, hnil, if_false, hraw, hbd, if_true, hr]
    · have hnil : bd.val ≠ 0xc0 := by omega
      have hraw : ¬ (0xa0 ≤ bd.val ∧ bd.val ≤ 0xbf) := by omega
      have h8 : ¬ (bd.val = 0xd9 ∨ bd.val = 0xc4) := by omega
      simp only [decodeBytes, hnil, if_false, hraw, h8, hbd, if_true, hr]
    · have hnil : bd.val ≠ 0xc0 := by omega
      have hraw : ¬ (0xa0 ≤ bd.val ∧ bd.val ≤ 0xbf) := by omega
      have h8 : ¬ (bd.val = 0xd9 ∨ bd.val = 0xc4) := by omega
      have h16 : ¬ (bd.val = 0xda ∨ bd.val = 0xc5) := by omega
      simp only [decodeBytes, hnil, if_false, hraw, h8, h16, hbd, if_true, hr]
  | uints hdr vs _ n hh hs hn =>
    obtain ⟨bd, len, rfl, hbd, hread⟩ :=
      readContainerLen_complete 0x90 0xdc 0xdd (by decide) (by decide) (by decide) hdr n hh
    have hassoc : (bd :: len) ++ vs ++ rest = bd :: (len ++ (vs ++ rest)) := by simp
    rw [hassoc]
    have hnil : bd.val ≠ 0xc0 := by omega
    have hraw : ¬ (0xa0 ≤ bd.val ∧ bd.val ≤ 0xbf) := by omega
    have h8 : ¬ (bd.val = 0xd9 ∨ bd.val = 0xc4) := by omega
    have h16 : ¬ (bd.val = 0xda ∨ bd.val = 0xc5) := by omega
    have h32 : ¬ (bd.val = 0xdb ∨ bd.val = 0xc6) := by omega
    simp only [decodeBytes, hnil, if_false, hraw, h8, h16, h32, hread]
    rw [← hn]
    exact decodeUints_complete vs bs hs rest

/-- Byte strings that are decoded one after the other were completely
encoded. -/
theorem decodeElems_sound (n : Nat) (r : List Byte) (l : List (List Byte)) (rest : List Byte)
    (h : decodeElems n r = .ok (l, rest)) :
    ∃ v, r = v ++ rest ∧ EncodesSeq EncodesBytes v l ∧ l.length = n :=
  seq_sound decodeBytes decodeElems EncodesBytes (fun _ => rfl)
    decodeElems_succ
    (fun r x rest hx => decodeBytes_sound r x rest hx) n r l rest h

/-- Complete encodings of byte strings in a row are decoded. -/
theorem decodeElems_complete (v : List Byte) (l : List (List Byte))
    (h : EncodesSeq EncodesBytes v l) (rest : List Byte) :
    decodeElems l.length (v ++ rest) = .ok (l, rest) :=
  seq_complete decodeBytes decodeElems EncodesBytes (fun _ => rfl)
    decodeElems_succ
    decodeBytes_complete v l h rest

/-- A list that is decoded was completely encoded at the front of the buffer. -/
theorem decodeContainer_sound (r : List Byte) (l : List (List Byte)) (rest : List Byte)
    (h : decodeContainer r = .ok (l, rest)) : ∃ v, r = v ++ rest ∧ EncodesList v l := by
  cases r with
  | nil => simp [decodeContainer] at h
  | cons bd tl =>
    by_cases hnil : bd.val = 0xc0
    · simp only [decodeContainer, hnil, if_true, Except.ok.injEq, Prod.mk.injEq] at h
      obtain ⟨rfl, rfl⟩ := h
      have hbd : bd = 0xc0 := Fin.ext hnil
      subst hbd
      exact ⟨[0xc0], rfl, EncodesList.nil⟩
    · by_cases hmap : (0x80 ≤ bd.val ∧ bd.val ≤ 0x8f) ∨ bd.val = 0xde ∨ bd.val = 0xdf
      · rw [decodeContainer_map bd tl hmap] at h
        cases h₁ : readContainerLen 0x80 0xde 0xdf bd tl with
        | error e => simp [h₁] at h
        | ok p =>
          obtain ⟨n, rest₁⟩ := p
          rw [h₁] at h
          simp only at h
          obtain ⟨len, e₁, hh⟩ := readContainerLen_sound _ _ _ bd tl rest₁ n h₁
          obtain ⟨vs, e₂, hvs, hn⟩ := decodeElems_sound (2 * n) rest₁ l rest h
          exact ⟨(bd :: len) ++ vs, by rw [e₁, e₂]; simp,
            EncodesList.map (bd :: len) vs l n hh hvs hn⟩
      · rw [decodeContainer_array bd tl hnil hmap] at h
        cases h₁ : readContainerLen 0x90 0xdc 0xdd bd tl with
        | error e => simp [h₁] at h
        | ok p =>
          obtain ⟨n, rest₁⟩ := p
          rw [h₁] at h
          simp only at h
          obtain ⟨len, e₁, hh⟩ := readContainerLen_sound _ _ _ bd tl rest₁ n h₁
          obtain ⟨vs, e₂, hvs, hn⟩ := decodeElems_sound n rest₁ l rest h
          exact ⟨(bd :: len) ++ vs, by rw [e₁, e₂]; simp,
            EncodesList.array (bd :: len) vs l n hh hvs hn⟩

/-- A complete encoding of a list is decoded, whatever follows it. -/
theorem decodeContainer_complete (v : List Byte) (l : List (List Byte))
    (h : EncodesList v l) (rest : List Byte) :
    decodeContainer (v ++ rest) = .ok (l, rest) := by
  cases h with
  | nil => rfl
  | array hdr vs _ n hh hs hn =>
    obtain ⟨bd, len, rfl, hbd, hread⟩ :=
      readContainerLen_complete 0x90 0xdc 0xdd (by decide) (by decide) (by decide) hdr n hh
    have hassoc : (bd :: len) ++ vs ++ rest = bd :: (len ++ (vs ++ rest)) := by simp
    rw [hassoc, decodeContainer_array bd _ (by omega) (by omega), hread]
    simp only
    rw [← hn]
    exact decodeElems_complete vs l hs rest
  | map hdr vs _ n hh hs hn =>
    obtain ⟨bd, len, rfl, hbd, hread⟩ :=
      readContainerLen_complete 0x80 0xde 0xdf (by decide) (by decide) (by decide) hdr n hh
    have hassoc : (bd :: len) ++ vs ++ rest = bd :: (len ++ (vs ++ rest)) := by simp
    rw [hassoc, decodeContainer_map bd _ (by omega), hread]
    simp only
    rw [← hn]
    exact decodeElems_complete vs l hs rest

/-- The decoder returns a list exactly when the buffer starts with a complete
encoding of it. -/
theorem decodeSlice_ok_iff (buf : List Byte) (l : List (List Byte)) :
    decodeSlice buf = .ok l ↔ ∃ v rest, buf = v ++ rest ∧ EncodesList v l := by
  constructor
  · intro h
    unfold decodeSlice at h
    cases h₁ : decodeContainer buf with
    | error e => simp [h₁] at h
    | ok p =>
      obtain ⟨l', rest⟩ := p
      rw [h₁] at h
      simp only [Except.ok.injEq] at h
      subst h
      obtain ⟨v, e, hv⟩ := decodeContainer_sound buf l' rest h₁
      exact ⟨v, rest, e, hv⟩
  · rintro ⟨v, rest, rfl, hv⟩
    simp only [decodeSlice, decodeContainer_complete v l hv rest]

/-- A buffer that does not start with a complete encoding of a list makes the
decoder fail. -/
theorem decodeSlice_error_of_not_startsWithList (buf : List Byte) (h : ¬ startsWithList buf) :
    ∃ e, decodeSlice buf = .error e := by
  cases hd : decodeSlice buf with
  | error e => exact ⟨e, rfl⟩
  | ok l =>
    exfalso
    obtain ⟨v, rest, e, hv⟩ := (decodeSlice_ok_iff buf l).mp hd
    exact h ⟨v, rest, l, e, hv⟩

/-- No strict prefix of a complete encoding of a list starts with a complete
encoding of a list. -/
theorem not_startsWithList_of_truncated (full p more : List Byte) (l : List (List Byte))
    (h : EncodesList full l) (hp : p ++ more = full) (hmore : more ≠ []) :
    ¬ startsWithList p := by
  rintro ⟨v, rest, l', rfl, hv⟩
  have h₁ := decodeContainer_complete full l h []
  have h₂ := decodeContainer_complete v l' hv (rest ++ more)
  rw [List.append_nil, ← hp, List.append_assoc, h₂] at h₁
  simp only [Except.ok.injEq, Prod.mk.injEq] at h₁
  exact hmore (List.append_eq_nil.mp h₁.2).2

/-- The output of the encoder is a complete encoding of the list, when the
lengths fit their 32-bit fields. -/
theorem encodesList_encodeSlice (l : List (List Byte)) (hl : l.length < 2 ^ 32)
    (h : ∀ bs ∈ l, bs.length < 2 ^ 32) : EncodesList (encodeSlice l) l := by
  obtain ⟨v, e, hv⟩ := decodeContainer_sound _ l [] (decodeContainer_encodeSlice l hl h)
  rw [List.append_nil] at e
  rw [e]
  exact hv

/-- The empty buffer does not start with a complete encoding of a list. -/
theorem not_startsWithList_nil : ¬ startsWithList [] := by
  rintro ⟨v, rest, l, e, hv⟩
  have hv' : v = [] := (List.append_eq_nil.mp e.symm).1
  subst hv'
  have := decodeContainer_complete [] l hv []
  simp [decodeContainer] at this

/-- A buffer whose first byte is not the descriptor of `nil`, of an array or of
a map does not start with a complete encoding of a list. -/
theorem not_startsWithList_of_descriptor (bd : Byte) (rest : List Byte)
    (hnil : bd.val ≠ 0xc0) (hfix : ¬ (0x80 ≤ bd.val ∧ bd.val ≤ 0x9f))
    (h16 : bd.val ≠ 0xdc ∧ bd.val ≠ 0xde) (h32 : bd.val ≠ 0xdd ∧ bd.val ≠ 0xdf) :
    ¬ startsWithList (bd :: rest) := by
  rintro ⟨v, tl, l, e, hv⟩
  have hd := decodeContainer_complete v l hv tl
  rw [← e, decodeContainer_array bd rest hnil (by omega)] at hd
  have hr : readContainerLen 0x90 0xdc 0xdd bd rest = .error "cannot read container length" := by
    unfold readContainerLen
    rw [if_neg (by omega), if_neg h16.1, if_neg h32.1]
  rw [hr] at hd
  cases hd

/-- The encoder never writes the buffer `[0x91, 0x91, 0x41]`, in which an array
stands in the place of a byte string. -/
theorem encodeSlice_ne_uints (l : List (List Byte)) :
    encodeSlice l ≠ [0x91, 0x91, 0x41] := by
  intro h
  cases l with
  | nil => simp [encodeSlice] at h
  | cons x xs =>
    simp only [encodeSlice, writeContainerLen] at h
    split_ifs at h with h1 h2
    · obtain ⟨-, -, hv⟩ := fixarray_header _ h1
      simp only [List.singleton_append, List.cons.injEq] at h
      have hv' : (0x91 : Byte).val &&& 0x0f = (x :: xs).length := by rw [← h.1]; exact hv
      have hone : (x :: xs).length = 1 := by rw [← hv']; rfl
      have hxs : xs = [] := by
        apply List.eq_nil_of_length_eq_zero
        simpa using hone
      subst hxs
      have hbody := h.2
      simp only [List.map_cons, List.map_nil, List.flatten_cons, List.flatten_nil,
        List.append_nil, encodeStringBytes, writeContainerLen] at hbody
      split_ifs at hbody with g1 g2
      · obtain ⟨-, gr, -⟩ := fixraw_header _ g1
        simp only [List.singleton_append, List.cons.injEq] at hbody
        rw [hbody.1] at gr
        exact absurd gr (by decide)
      · simp only [List.cons_append, List.cons.injEq] at hbody
        exact absurd hbody.1 (by decide)
      · simp only [List.cons_append, List.cons.injEq] at hbody
        exact absurd hbody.1 (by decide)
    · simp only [List.cons_append, List.cons.injEq] at h
      exact absurd h.1 (by decide)
    · simp only [List.cons_append, List.cons.injEq] at h
      exact absurd h.1 (by decide)

/-- The encoder never writes a buffer that starts with the descriptor `0x81` of a
map. -/
theorem encodeSlice_ne_map (l : List (List Byte)) (rest : List Byte) :
    encodeSlice l ≠ 0x81 :: rest := by
  intro h
  cases l with
  | nil =>
    simp only [encodeSlice, List.cons.injEq] at h
    exact absurd h.1 (by decide)
  | cons x xs =>
    simp only [encodeSlice, writeContainerLen] at h
    split_ifs at h with h1 h2
    · obtain ⟨-, hr, -⟩ := fixarray_header _ h1
      simp only [List.singleton_append, List.cons.injEq] at h
      rw [h.1] at hr
      exact absurd hr (by decide)
    · simp only [List.cons_append, List.cons.injEq] at h
      exact absurd h.1 (by decide)
    · simp only [List.cons_append, List.cons.injEq] at h
      exact absurd h.1 (by decide)

/-! ## Configuration codec: the stated property on faults -/

/-- Claim C16, as amended: for every byte sequence that does not start with a
complete encoding of a list of byte strings, `decodePeers` signals a fault and
returns no peer list, in particular no partial one. Such sequences are the empty
input, every strict prefix of a complete encoding, hence every strict prefix of
the output of `encodePeers` for fewer than `2 ^ 32` peers that are each encoded
in fewer than `2 ^ 32` bytes, and every input whose first byte is not the
descriptor of `nil`, of an array or of a map. Every other input is decoded
without a fault, and the bytes that follow the complete encoding are not
examined. -/
theorem decodePeers_malformed {α : Type} (t : Transport α) (buf : List Byte)
    (hbad : ¬ startsWithList buf) :
    (∃ e, decodePeers buf t = .error e)
      ∧ (∀ peers, decodePeers buf t ≠ .ok peers)
      ∧ ¬ startsWithList []
      ∧ (∀ (full p more : List Byte) (l : List (List Byte)), EncodesList full l →
            p ++ more = full → more ≠ [] → ¬ startsWithList p)
      ∧ (∀ (S : List α) (p more : List Byte), S.length < 2 ^ 32 →
            (∀ q ∈ S, (t.EncodePeer q).length < 2 ^ 32) →
            encodePeers S t = .ok (p ++ more) → more ≠ [] → ¬ startsWithList p)
      ∧ (∀ (bd : Byte) (rest : List Byte), bd.val ≠ 0xc0 →
            ¬ (0x80 ≤ bd.val ∧ bd.val ≤ 0x9f) → bd.val ≠ 0xdc ∧ bd.val ≠ 0xde →
            bd.val ≠ 0xdd ∧ bd.val ≠ 0xdf → ¬ startsWithList (bd :: rest))
      ∧ (∀ (v rest : List Byte) (l : List (List Byte)), EncodesList v l →
            decodePeers (v ++ rest) t = .ok (l.map t.DecodePeer)) := by
  obtain ⟨e, he⟩ := decodeSlice_error_of_not_startsWithList buf hbad
  have hfail : decodePeers buf t = .error ("Failed to decode peers: " ++ e) := by
    simp only [decodePeers, decodeMsgPack, he]
  refine ⟨⟨_, hfail⟩, ?_, not_startsWithList_nil, not_startsWithList_of_truncated, ?_,
    not_startsWithList_of_descriptor, ?_⟩
  · intro peers hp
    rw [hfail] at hp
    cases hp
  · intro S p more hlen hsize henc hmore
    rw [encodePeers_eq] at henc
    have hfull : EncodesList (p ++ more) (S.map t.EncodePeer) := by
      rw [← Except.ok.inj henc]
      apply encodesList_encodeSlice
      · simpa using hlen
      · intro bs hbs
        rw [List.mem_map] at hbs
        obtain ⟨q, hq, rfl⟩ := hbs
        exact hsize q hq
    exact not_startsWithList_of_truncated (p ++ more) p more _ hfull rfl hmore
  · intro v rest l hv
    have hd : decodeSlice (v ++ rest) = .ok l := (decodeSlice_ok_iff _ l).mpr ⟨v, rest, rfl, hv⟩
    simp only [decodePeers, decodeMsgPack, hd, decodePeers_loop, List.nil_append]

/-- Witness of claim C16: the output of `encodePeers` for `[A, B]` with the
identity per-peer codec, cut before its last byte. -/
theorem decodePeers_malformed_witness :
    encodePeers ([[65], [66]] : List (List Byte)) identityTransport
        = .ok ([0x92, 0xa1, 65, 0xa1] ++ [66])
      ∧ ¬ startsWithList [0x92, 0xa1, 65, 0xa1]
      ∧ ∃ e, decodePeers [0x92, 0xa1, 65, 0xa1] identityTransport = .error e :=
  have hbad : ¬ startsWithList [0x92, 0xa1, 65, 0xa1] :=
    not_startsWithList_of_truncated [0x92, 0xa1, 65, 0xa1, 66] [0x92, 0xa1, 65, 0xa1] [66]
      [[65], [66]] (encodesList_encodeSlice [[65], [66]] (by decide) (by decide)) rfl
      (by decide)
  ⟨rfl, hbad, (decodePeers_malformed identityTransport [0x92, 0xa1, 65, 0xa1] hbad).1⟩

/-- Counterexample to claim C16 as stated: three buffers that are not the output
of `encodePeers` for any list of peers and any transport, and for which
`decodePeers` returns a list without a fault: the encoding of `[[0x41]]` followed
by a stray byte, a map with one key and one value, and an array whose element is
an array of one integer. -/
theorem decodePeers_trailing_accepted :
    (∀ (α : Type) (t : Transport α) (S : List α),
        encodePeers S t ≠ .ok [0x91, 0xa1, 0x41, 0xff]
          ∧ encodePeers S t ≠ .ok [0x81, 0xa1, 0x41, 0xa1, 0x42]
          ∧ encodePeers S t ≠ .ok [0x91, 0x91, 0x41])
      ∧ encodePeers ([[0x41]] : List (List Byte)) identityTransport = .ok [0x91, 0xa1, 0x41]
      ∧ decodePeers [0x91, 0xa1, 0x41, 0xff] identityTransport = .ok [[0x41]]
      ∧ decodePeers [0x81, 0xa1, 0x41, 0xa1, 0x42] identityTransport = .ok [[0x41], [0x42]]
      ∧ decodePeers [0x91, 0x91, 0x41] identityTransport = .ok [[0x41]] := by
  refine ⟨?_, rfl, rfl, rfl, rfl⟩
  intro α t S
  rw [encodePeers_eq]
  exact ⟨fun h => encodeSlice_ne_trailing _ (Except.ok.inj h),
    fun h => encodeSlice_ne_map _ _ (Except.ok.inj h),
    fun h => encodeSlice_ne_uints _ (Except.ok.inj h)⟩

end Raft
